import Mathlib

/-!
# Verification of an in-memory B-tree (insert / split / adopt / iterators)

Shallow embedding of the C++ B-tree in `src/main.cpp`:

* keys and values are modelled as `Int` (the demo instantiates `K = V = int`;
  the generic comparator branch is a three-way compare);
* a node is either a leaf (a sorted array `keys/values` of `usage` occupied
  slots, modelled as a list of pairs) or an internal node (additionally
  `usage + 1` children).  The mutual inductive `BT`/`EL` stores an internal
  node as its child `children[0]` plus the interleaved list
  `(key i, value i, children[i+1])`, which makes the structural invariant
  "children = usage + 1" hold by construction;
* `BTreeNode::insert` / `BTreeNode::adopt` propagate splits through parent
  pointers; the embedding `insertN`/`insAux` performs the identical
  computation with the split result returned to the (unique) caller, the
  parent, which adopts it — the state after each complete `BTree::insert`
  is the same tree;
* iterators hold a node pointer and a slot.  In the embedding a node of the
  tree is identified by its path from the root (list of child indices), so an
  iterator is `(path, slot)`; the `nullptr` node of the end/before-begin
  sentinel is `none`.  `successor`'s climbing loop over parent pointers
  becomes a recursion over the reversed path.
-/

namespace BTreeV

/-- A key/value slot: `(keys[i], values[i])`. -/
abbrev Entry := Int × Int

/-- `default_compare` for a signed/ordered key type, the exact three-way
branch `(a < b) ? -1 : ((a > b) ? 1 : 0)` of `default_compare::operator()`. -/
def cmp (a b : Int) : Int :=
  if a < b then -1 else if b < a then 1 else 0

mutual

/-- A B-tree node (`BTreeNode`): a leaf holds the occupied slots
`(keys[i], values[i]) (i < usage)`; an internal node holds `children[0]`
and the entry list pairing `keys[i], values[i]` with `children[i+1]`. -/
inductive BT : Type where
  | leaf : List Entry → BT
  | node : BT → EL → BT

/-- The entries of an internal node from index `i` on:
`cons keys[i] values[i] children[i+1] rest`. -/
inductive EL : Type where
  | nil : EL
  | cons : Int → Int → BT → EL → EL

end

/-- Number of entries in an entry list. -/
def EL.len : EL → Nat
  | .nil => 0
  | .cons _ _ _ tl => tl.len + 1

/-- `usage`: the number of occupied key slots of a node. -/
def usageOf : BT → Nat
  | .leaf kvs => kvs.length
  | .node _ rest => rest.len

/-- Result of `linear_search`: `FOUND | i` or `GO_DOWN | i`. -/
inductive Loc : Type where
  | found : Nat → Loc
  | goDown : Nat → Loc
deriving DecidableEq, Repr

/-- `BTreeNode::linear_search`: scan the occupied slots in order; the first
slot with `comp(key, keys[i]) < 0` gives `GO_DOWN | i`, an exact match gives
`FOUND | i`, and falling off the end gives `GO_DOWN | usage`. -/
def linSearch (key : Int) : List Entry → Loc
  | [] => .goDown 0
  | (k, _) :: tl =>
    if cmp key k < 0 then .goDown 0
    else if cmp key k = 0 then .found 0
    else
      match linSearch key tl with
      | .found i => .found (i + 1)
      | .goDown i => .goDown (i + 1)

/-- The leaf branch of `BTreeNode::insert` before the split check:
`linear_search`, then either overwrite `values[i]` (returning the previous
value) or shift the tail right and write the pair at the insertion point.
Written as a single scan; `leafIns_eq_search` below proves it equal to the
source's two-phase `linear_search` + `move_backward` formulation. -/
def leafIns (key v : Int) : List Entry → Option Int × List Entry
  | [] => (none, [(key, v)])
  | (k0, v0) :: tl =>
    if cmp key k0 < 0 then (none, (key, v) :: (k0, v0) :: tl)
    else if cmp key k0 = 0 then (some v0, (k0, v) :: tl)
    else
      let r := leafIns key v tl
      (r.1, (k0, v0) :: r.2)

/-- Result of a node-level insert: either the updated node, or a
`SplitResult {l, key, value, r}` to be adopted by the parent. -/
inductive Ins : Type where
  | ok : BT → Ins
  | split : BT → Int → Int → BT → Ins

/-- First `n` entries of an entry list (`keys[0..n)` with their right
children). -/
def EL.take : Nat → EL → EL
  | 0, _ => .nil
  | _ + 1, .nil => .nil
  | n + 1, .cons k v c tl => .cons k v c (tl.take n)

/-- Entries from index `n` on. -/
def EL.drop : Nat → EL → EL
  | 0, e => e
  | _ + 1, .nil => .nil
  | n + 1, .cons _ _ _ tl => tl.drop n

/-- `(keys[n], values[n], children[n+1])`, when present. -/
def EL.get? : Nat → EL → Option (Int × Int × BT)
  | _, .nil => none
  | 0, .cons k v c _ => some (k, v, c)
  | n + 1, .cons _ _ _ tl => tl.get? n

/-- `BTreeNode::split` for a leaf with `usage = 2B-1`: the left sibling
takes `keys[0..B-1)`, the right `keys[B..2B-1)`, and `keys[B-1]` is
promoted.  (The `ok` fallback is dead for `usage = 2B-1`, `B ≥ 1`; the
source asserts this.) -/
def splitLeaf (B : Nat) (kvs : List Entry) : Ins :=
  match kvs.get? (B - 1) with
  | some (k, v) => .split (.leaf (kvs.take (B - 1))) k v (.leaf (kvs.drop B))
  | none => .ok (.leaf kvs)

/-- `BTreeNode::split` for an internal node with `usage = 2B-1`: the left
sibling takes `keys[0..B-1)` and `children[0..B)`, the right takes
`keys[B..2B-1)` and `children[B..2B)`, and `keys[B-1]` is promoted.  In the
source each moved child's `parent`/`parent_idx` is re-stamped; in the
embedding a child's identity is its position, so the transfer of
`children[0..B)` and `children[B..2B)` is the content of that re-stamping. -/
def splitNode (B : Nat) (c0 : BT) (rest : EL) : Ins :=
  match rest.get? (B - 1) with
  | some (k, v, cB) =>
    .split (.node c0 (rest.take (B - 1))) k v (.node cB (rest.drop B))
  | none => .ok (.node c0 rest)

mutual

/-- `BTreeNode::insert`.  Leaf: `leafIns`, then — exactly when a new key
raised `usage` to `2B-1` — an immediate split.  Internal: `insAux` walks the
entries as `linear_search` does, overwrites on an exact match, otherwise
descends; if the child split, this node adopts the promoted pair in place
(`BTreeNode::adopt`), and — exactly when the adoption raised `usage` to
`2B-1` — splits itself.  A returned `Ins.split` is the `SplitResult` handed
to this node's parent (or to `BTree::insert` at the root). -/
def insertN (B : Nat) (key v : Int) : BT → Option Int × Ins
  | .leaf kvs =>
    match leafIns key v kvs with
    | (some old, kvs') => (some old, .ok (.leaf kvs'))
    | (none, kvs') =>
      if kvs'.length = 2 * B - 1 then (none, splitLeaf B kvs')
      else (none, .ok (.leaf kvs'))
  | .node c0 rest =>
    match insAux B key v c0 rest with
    | (old, c0', rest', adopted) =>
      if adopted ∧ rest'.len = 2 * B - 1 then (old, splitNode B c0' rest')
      else (old, .ok (.node c0' rest'))
termination_by t => sizeOf t
decreasing_by all_goals (simp_wf; try omega)

/-- The internal-node walk of `BTreeNode::insert` fused with
`BTreeNode::adopt`: `c` is the child left of the first remaining entry.  On
`comp(key, keys[i]) < 0` (or end of entries) descend into the child at that
position; on a match overwrite `values[i]`.  When the child at position `p`
splits into `l, r` with promoted `(pk, pv)`, the parent replaces
`children[p]` by `l` and splices `(pk, pv)` with right child `r` in at
position `p` — exactly `adopt`'s shift of `keys/values/children` and
re-stamp of the shifted children's indices, child identity being position.
The `Bool` records whether an adoption happened (i.e. `usage` grew). -/
def insAux (B : Nat) (key v : Int) (c : BT) : EL → Option Int × BT × EL × Bool
  | .nil =>
    match insertN B key v c with
    | (old, .ok c') => (old, c', .nil, false)
    | (old, .split l pk pv r) => (old, l, .cons pk pv r .nil, true)
  | .cons k0 v0 c1 tl =>
    if cmp key k0 < 0 then
      match insertN B key v c with
      | (old, .ok c') => (old, c', .cons k0 v0 c1 tl, false)
      | (old, .split l pk pv r) =>
        (old, l, .cons pk pv r (.cons k0 v0 c1 tl), true)
    else if cmp key k0 = 0 then (some v0, c, .cons k0 v c1 tl, false)
    else
      match insAux B key v c1 tl with
      | (old, c1', tl', ad) => (old, c, .cons k0 v0 c1' tl', ad)
termination_by rest => sizeOf c + sizeOf rest
decreasing_by all_goals (simp_wf; try omega)

end

/-- `BTree::insert`: an empty tree gets a fresh singleton leaf root; a root
split is resolved by `BTreeNode::singleton` — a new internal root with one
key and the two siblings as `children[0], children[1]`. -/
def treeInsert (B : Nat) (key v : Int) : Option BT → Option Int × Option BT
  | none => (none, some (.leaf [(key, v)]))
  | some root =>
    match insertN B key v root with
    | (old, .ok t) => (old, some t)
    | (old, .split l k w r) => (old, some (.node l (.cons k w r .nil)))

mutual

/-- `BTreeNode::member`: `linear_search`; `FOUND` answers true, a leaf miss
answers false, an internal miss recurses into `children[GO_DOWN index]`. -/
def memberN (key : Int) : BT → Bool
  | .leaf kvs =>
    match linSearch key kvs with
    | .found _ => true
    | .goDown _ => false
  | .node c0 rest => memAux key c0 rest
termination_by t => sizeOf t
decreasing_by all_goals (simp_wf; try omega)

/-- The internal-node walk of `member`, fused with the descent (the child
argument is the one left of the first remaining entry). -/
def memAux (key : Int) (c : BT) : EL → Bool
  | .nil => memberN key c
  | .cons k0 _ c1 tl =>
    if cmp key k0 < 0 then memberN key c
    else if cmp key k0 = 0 then true
    else memAux key c1 tl
termination_by rest => sizeOf c + sizeOf rest
decreasing_by all_goals (simp_wf; try omega)

end

/-- Membership through the tree object: an empty tree has no members. -/
def treeMember (r : Option BT) (key : Int) : Bool :=
  match r with
  | none => false
  | some t => memberN key t

/-- The tree reached by inserting a sequence of key/value pairs into an
initially empty `BTree`. -/
def reach (B : Nat) (seq : List Entry) : Option BT :=
  seq.foldl (fun r kv => (treeInsert B kv.1 kv.2 r).2) none

mutual

/-- In-order flattening of all `(key, value)` slots. -/
def entriesOf : BT → List Entry
  | .leaf kvs => kvs
  | .node c0 rest => entriesOf c0 ++ entriesAux rest

def entriesAux : EL → List Entry
  | .nil => []
  | .cons k v c tl => (k, v) :: (entriesOf c ++ entriesAux tl)

end

/-- In-order key sequence. -/
def keysOf (t : BT) : List Int := (entriesOf t).map (·.1)

/-- Lower-bound check: `k` is above the (optional) strict lower bound. -/
def lbOk : Option Int → Int → Bool
  | none, _ => true
  | some a, k => a < k

/-- Upper-bound check: `k` is below the (optional) strict upper bound. -/
def ubOk : Option Int → Int → Bool
  | none, _ => true
  | some b, k => k < b

/-- A strictly ascending run of slots inside `(lo, hi)`. -/
def okL (lo hi : Option Int) : List Entry → Bool
  | [] => true
  | (k, _) :: tl => lbOk lo k && ubOk hi k && okL (some k) hi tl

mutual

/-- Search-tree ordering invariant (spec §3 invariants 1–2): keys in a node
strictly ascend and every subtree lies strictly between its neighbouring
keys, all within the window `(lo, hi)`. -/
def good (lo hi : Option Int) : BT → Bool
  | .leaf kvs => okL lo hi kvs
  | .node c0 rest => goodAux lo hi c0 rest
termination_by t => sizeOf t
decreasing_by all_goals (simp_wf; try omega)

def goodAux (lo hi : Option Int) (c : BT) : EL → Bool
  | .nil => good lo hi c
  | .cons k _ c1 tl =>
    lbOk lo k && ubOk hi k && good lo (some k) c && goodAux (some k) hi c1 tl
termination_by rest => sizeOf c + sizeOf rest
decreasing_by all_goals (simp_wf; try omega)

end

mutual

/-- Every node of the tree has `usage ≤ m`. -/
def usageLe (m : Nat) : BT → Bool
  | .leaf kvs => kvs.length ≤ m
  | .node c0 rest => (rest.len ≤ m) && usageLeAux m c0 rest
termination_by t => sizeOf t
decreasing_by all_goals (simp_wf; try omega)

def usageLeAux (m : Nat) (c : BT) : EL → Bool
  | .nil => usageLe m c
  | .cons _ _ c1 tl => usageLe m c && usageLeAux m c1 tl
termination_by rest => sizeOf c + sizeOf rest
decreasing_by all_goals (simp_wf; try omega)

end

mutual

/-- Every node of the tree has `usage ≥ 1` (holds for every tree the code
can reach when `B ≥ 2`: roots start with one key, split siblings hold
`B - 1 ≥ 1`). -/
def nzAll : BT → Bool
  | .leaf kvs => 1 ≤ kvs.length
  | .node c0 rest => (1 ≤ rest.len) && nzAllAux c0 rest
termination_by t => sizeOf t
decreasing_by all_goals (simp_wf; try omega)

def nzAllAux (c : BT) : EL → Bool
  | .nil => nzAll c
  | .cons _ _ c1 tl => nzAll c && nzAllAux c1 tl
termination_by rest => sizeOf c + sizeOf rest
decreasing_by all_goals (simp_wf; try omega)

end

/-- Height: number of levels of children below the node, following
`children[0]` (for an equal-depth tree every path agrees). -/
def hgt : BT → Nat
  | .leaf _ => 0
  | .node c0 _ => hgt c0 + 1

mutual

/-- Every leaf of the tree sits at depth exactly `h`. -/
def eqDepth : BT → Nat → Bool
  | .leaf _, h => h = 0
  | .node _ _, 0 => false
  | .node c0 rest, h + 1 => eqDepth c0 h && eqDepthAux rest h
termination_by t => sizeOf t
decreasing_by all_goals (simp_wf; try omega)

def eqDepthAux : EL → Nat → Bool
  | .nil, _ => true
  | .cons _ _ c tl, h => eqDepth c h && eqDepthAux tl h
termination_by rest => sizeOf rest
decreasing_by all_goals (simp_wf; try omega)

end

/-! ## Iterators

A live node of a tree is identified by its path from the root: the list of
child indices (`parent_idx` values) leading to it.  An iterator position is
`(path, slot)`; `Option` is `none` exactly when the source iterator's node
pointer is `nullptr` (the sentinel). -/

/-- `children[j]` of an internal node given as `(children[0], entries)`. -/
def childAt (c0 : BT) : EL → Nat → Option BT
  | _, 0 => some c0
  | .nil, _ + 1 => none
  | .cons _ _ c tl, j + 1 => childAt c tl j

/-- The node reached from `t` by following a path of child indices. -/
def subtreeAt : BT → List Nat → Option BT
  | t, [] => some t
  | .leaf _, _ :: _ => none
  | .node c0 rest, j :: p =>
    match childAt c0 rest j with
    | some c => subtreeAt c p
    | none => none

/-- Path taken by `BTreeNode::min`: keep descending into `children[0]`. -/
def minPathOf : BT → List Nat
  | .leaf _ => []
  | .node c0 _ => 0 :: minPathOf c0

mutual

/-- Path taken by `BTreeNode::max`: keep descending into `children[usage]`. -/
def maxPathOf : BT → List Nat
  | .leaf _ => []
  | .node c0 rest => rest.len :: maxPathAux c0 rest
termination_by t => sizeOf t
decreasing_by all_goals (simp_wf; try omega)

def maxPathAux (c : BT) : EL → List Nat
  | .nil => maxPathOf c
  | .cons _ _ c1 tl => maxPathAux c1 tl
termination_by rest => sizeOf c + sizeOf rest
decreasing_by all_goals (simp_wf; try omega)

end

mutual

/-- The slot of `BTreeNode::max`: `usage - 1` of the rightmost leaf. -/
def maxIdxOf : BT → Nat
  | .leaf kvs => kvs.length - 1
  | .node c0 rest => maxIdxAux c0 rest
termination_by t => sizeOf t
decreasing_by all_goals (simp_wf; try omega)

def maxIdxAux (c : BT) : EL → Nat
  | .nil => maxIdxOf c
  | .cons _ _ c1 tl => maxIdxAux c1 tl
termination_by rest => sizeOf c + sizeOf rest
decreasing_by all_goals (simp_wf; try omega)

end

/-- The climbing loop of `BTreeNode::successor` (leaf, last slot):
`while (node->parent && node->idx == parent->usage) node = parent;` then
`{parent, node->idx}` if a parent remains, else the end sentinel.  The
argument is the reversed path of the current node: its head is the current
node's `parent_idx`, the tail the reversed path of its parent. -/
def climbSucc (t : BT) : List Nat → Option (List Nat × Nat)
  | [] => none
  | j :: rp =>
    match subtreeAt t rp.reverse with
    | some n => if j = usageOf n then climbSucc t rp else some (rp.reverse, j)
    | none => none

/-- The climbing loop of `BTreeNode::predecessor` (leaf, slot 0):
`while (node->parent && node->idx == 0) node = parent;` then
`{parent, node->idx - 1}` if a parent remains, else the before-begin
sentinel. -/
def climbPred (t : BT) : List Nat → Option (List Nat × Nat)
  | [] => none
  | j :: rp =>
    match subtreeAt t rp.reverse with
    | some _ => if j = 0 then climbPred t rp else some (rp.reverse, j - 1)
    | none => none

/-- `BTreeNode::successor` at position `(p, i)` of the tree `t`:
internal node → `children[i+1]->min()`; leaf, `i < usage - 1` → next slot;
leaf, last slot → climb. -/
def succIter (t : BT) (p : List Nat) (i : Nat) : Option (List Nat × Nat) :=
  match subtreeAt t p with
  | some (.leaf kvs) =>
    if i < kvs.length - 1 then some (p, i + 1)
    else climbSucc t p.reverse
  | some (.node c0 rest) =>
    match childAt c0 rest (i + 1) with
    | some c => some (p ++ (i + 1) :: minPathOf c, 0)
    | none => none
  | none => none

/-- `BTreeNode::predecessor` at position `(p, i)`:
internal node → `children[i]->max()`; leaf, `i ≠ 0` → previous slot;
leaf, slot 0 → climb. -/
def predIter (t : BT) (p : List Nat) (i : Nat) : Option (List Nat × Nat) :=
  match subtreeAt t p with
  | some (.leaf _) =>
    if i ≠ 0 then some (p, i - 1)
    else climbPred t p.reverse
  | some (.node c0 rest) =>
    match childAt c0 rest i with
    | some c => some (p ++ i :: maxPathOf c, maxIdxOf c)
    | none => none
  | none => none

/-- The key/value slots stored in the node itself (`keys[i], values[i]`). -/
def ownEntries : BT → List Entry
  | .leaf kvs => kvs
  | .node _ rest => entriesOnly rest
where
  entriesOnly : EL → List Entry
    | .nil => []
    | .cons k v _ tl => (k, v) :: entriesOnly tl

/-- The key an iterator at `(p, i)` dereferences to (`node->key_at(idx)`). -/
def keyAtPos (t : BT) (p : List Nat) (i : Nat) : Option Int :=
  match subtreeAt t p with
  | some n => ((ownEntries n).get? i).map (·.1)
  | none => none

/-- `(p, i)` is a live iterator position: the path resolves to a node and
`i` addresses one of its occupied slots. -/
def validPos (t : BT) (p : List Nat) (i : Nat) : Bool :=
  match subtreeAt t p with
  | some n => i < usageOf n
  | none => false

mutual

/-- All iterator positions of the tree, in traversal order, as paths
relative to the tree's root. -/
def posOf : BT → List (List Nat × Nat)
  | .leaf kvs => (List.range kvs.length).map (fun i => ([], i))
  | .node c0 rest =>
    (posOf c0).map (fun q => (0 :: q.1, q.2)) ++ posAux 0 rest
termination_by t => sizeOf t
decreasing_by all_goals (simp_wf; try omega)

def posAux : Nat → EL → List (List Nat × Nat)
  | _, .nil => []
  | j, .cons _ _ c tl =>
    ([], j) :: ((posOf c).map (fun q => ((j + 1) :: q.1, q.2)) ++ posAux (j + 1) tl)
termination_by _ rest => sizeOf rest
decreasing_by all_goals (simp_wf; try omega)

end

/-- Keys visited by repeatedly applying `successor`, starting from a given
position, with explicit fuel. -/
def travFrom (t : BT) : Nat → Option (List Nat × Nat) → List Int
  | 0, _ => []
  | _ + 1, none => []
  | fuel + 1, some (p, i) =>
    match keyAtPos t p i with
    | some k => k :: travFrom t fuel (succIter t p i)
    | none => []

/-- The `begin()`-to-`end()` key sequence: start at `root->min()` and apply
`successor` until the sentinel; one fuel unit per stored slot suffices
(`trav_eq_keysOf`). -/
def trav (t : BT) : List Int :=
  travFrom t (entriesOf t).length (some (minPathOf t, 0))

/-- `begin()`→`end()` keys at tree level: an empty tree has `begin = end`
and yields nothing. -/
def treeTrav : Option BT → List Int
  | none => []
  | some t => trav t

/-! ## Iterator values (`AbstractBTNode::iterator`) -/

/-- An iterator value: `idx` and the node pointer (`none` = `nullptr`),
nodes being identified by their root paths. -/
structure It where
  idx : Nat
  node : Option (List Nat)
deriving DecidableEq, Repr

/-- `iterator::operator==`: `idx == that.idx && node == that.node`. -/
def itEq (a b : It) : Bool := a.idx == b.idx && a.node == b.node

/-- `BTree::end()`: `{.idx = 0, .node = nullptr}`. -/
def endIt : It := ⟨0, none⟩

/-- Pack an optional position into an iterator value; both exhausted climbs
in the source return `{.idx = 0, .node = nullptr}`, here `none`. -/
def toIt : Option (List Nat × Nat) → It
  | none => ⟨0, none⟩
  | some (p, i) => ⟨i, some p⟩

/-! ## Flat-list (abstract map) counterparts used to specify `insert` -/

/-- Sorted-position insert-or-overwrite on the flattened slot list: the
abstract effect one `BTree::insert` must have on the in-order flattening. -/
def linsert (key v : Int) : List Entry → List Entry
  | [] => [(key, v)]
  | (k0, v0) :: tl =>
    if key < k0 then (key, v) :: (k0, v0) :: tl
    else if key = k0 then (k0, v) :: tl
    else (k0, v0) :: linsert key v tl

/-- Value stored for `key` in a flat slot list. -/
def lookupL (key : Int) : List Entry → Option Int
  | [] => none
  | (k0, v0) :: tl => if key = k0 then some v0 else lookupL key tl

/-- Flat model of a whole insert sequence applied to an empty map. -/
def flatOf (seq : List Entry) : List Entry :=
  seq.foldl (fun l kv => linsert kv.1 kv.2 l) []

/-- Number of children of a node (`usage + 1` for internal nodes). -/
def childCount : BT → Nat
  | .leaf _ => 0
  | .node _ rest => rest.len + 1

/-- Slots of the leaf `BTreeNode::min` ends at. -/
def minKvs : BT → List Entry
  | .leaf kvs => kvs
  | .node c0 _ => minKvs c0

/-- `children[usage]`, the rightmost child of `(c0, rest)`. -/
def lastChild (c : BT) : EL → BT
  | .nil => c
  | .cons _ _ c1 tl => lastChild c1 tl

mutual

/-- Slots of the leaf `BTreeNode::max` ends at. -/
def maxKvs : BT → List Entry
  | .leaf kvs => kvs
  | .node c0 rest => maxKvsAux c0 rest
termination_by t => sizeOf t
decreasing_by all_goals (simp_wf; try omega)

def maxKvsAux (c : BT) : EL → List Entry
  | .nil => maxKvs c
  | .cons _ _ c1 tl => maxKvsAux c1 tl
termination_by rest => sizeOf c + sizeOf rest
decreasing_by all_goals (simp_wf; try omega)

end

/-- Contract of one node-level insert (`insertN`), relative to the node's
window `(lo, hi)`, its leaf depth `h`, and its flattening `flat`: the
returned previous value is the map lookup, the new flattening is the map
insert, and the ordering / non-empty / usage-bound / equal-depth invariants
persist — with a split producing two siblings of exactly `B - 1` keys
around the promoted key. -/
def InsOk (B : Nat) (key : Int) (lo hi : Option Int) (h : Nat)
    (flat : List Entry) (v : Int) : Option Int × Ins → Prop
  | (old, .ok t') =>
    old = lookupL key flat ∧ entriesOf t' = linsert key v flat ∧
    good lo hi t' = true ∧ nzAll t' = true ∧
    usageLe (2 * B - 2) t' = true ∧ eqDepth t' h = true
  | (old, .split l pk pv r) =>
    old = lookupL key flat ∧
    entriesOf l ++ (pk, pv) :: entriesOf r = linsert key v flat ∧
    good lo (some pk) l = true ∧ good (some pk) hi r = true ∧
    lbOk lo pk = true ∧ ubOk hi pk = true ∧
    nzAll l = true ∧ nzAll r = true ∧
    usageLe (2 * B - 2) l = true ∧ usageLe (2 * B - 2) r = true ∧
    eqDepth l h = true ∧ eqDepth r h = true ∧
    usageOf l = B - 1 ∧ usageOf r = B - 1

/-- Contract of the internal-node walk (`insAux`) over the virtual node
`(c, rest)`: same abstract effect, invariants persist, and the entry count
grows exactly when an adoption happened. -/
def AuxOk (B : Nat) (key : Int) (lo hi : Option Int) (h restLen : Nat)
    (flat : List Entry) (v : Int) : Option Int × BT × EL × Bool → Prop
  | (old, c', rest', ad) =>
    old = lookupL key flat ∧
    entriesOf c' ++ entriesAux rest' = linsert key v flat ∧
    goodAux lo hi c' rest' = true ∧ nzAllAux c' rest' = true ∧
    usageLeAux (2 * B - 2) c' rest' = true ∧
    eqDepth c' h = true ∧ eqDepthAux rest' h = true ∧
    rest'.len = restLen + (if ad then 1 else 0)

/-- Flattened slots of the whole tree (`[]` for an empty tree). -/
def treeEntries : Option BT → List Entry
  | none => []
  | some t => entriesOf t

/-- The invariants every reachable root satisfies (for `2 ≤ B`): search-tree
ordering, no empty node, every `usage ≤ 2B-2`, and all leaves at the same
depth (spec §3, invariants 1–4). -/
def Rooted (B : Nat) : Option BT → Prop
  | none => True
  | some t =>
    good none none t = true ∧ nzAll t = true ∧
    usageLe (2 * B - 2) t = true ∧ eqDepth t (hgt t) = true

/-! ## The subtraction-based comparator on a signed 32-bit key -/

/-- Two's-complement wrap of an integer into `[-2^31, 2^31)`. -/
def wrap32 (x : Int) : Int := (x + 2 ^ 31) % 2 ^ 32 - 2 ^ 31

/-- `default_compare` for `K = int` (the demo's instantiation): the branch
`return a - b;`, computed in 32-bit `int` arithmetic.  (Signed overflow is
undefined behaviour in C++; the model takes the two's-complement wraparound
the compiled code produces.) -/
def cmpSigned32 (a b : Int) : Int := wrap32 (a - b)

/-! ## Basic lemmas: comparator, windows, sorted runs -/

theorem cmp_lt_iff (a b : Int) : cmp a b < 0 ↔ a < b := by
  unfold cmp; split_ifs with h1 h2 <;> omega

theorem cmp_eq_iff (a b : Int) : cmp a b = 0 ↔ a = b := by
  unfold cmp; split_ifs with h1 h2
  · simp only [show ¬((-1 : Int) = 0) by norm_num, false_iff]; omega
  · simp only [show ¬((1 : Int) = 0) by norm_num, false_iff]; omega
  · simp only [true_iff]; omega

theorem lbOk_of_lt {lo : Option Int} {a k : Int} (h : lbOk lo a = true)
    (hak : a < k) : lbOk lo k = true := by
  cases lo with
  | none => rfl
  | some x => simp only [lbOk, decide_eq_true_eq] at *; omega

theorem ubOk_of_lt {hi : Option Int} {b k : Int} (h : ubOk hi b = true)
    (hkb : k < b) : ubOk hi k = true := by
  cases hi with
  | none => rfl
  | some x => simp only [ubOk, decide_eq_true_eq] at *; omega

theorem okL_all_lb {lo hi : Option Int} {l : List Entry}
    (h : okL lo hi l = true) : ∀ e ∈ l, lbOk lo e.1 = true := by
  induction l generalizing lo with
  | nil => simp
  | cons a tl ih =>
    obtain ⟨k, w⟩ := a
    simp only [okL, Bool.and_eq_true] at h
    obtain ⟨⟨h1, h2⟩, h3⟩ := h
    intro e he
    rcases List.mem_cons.1 he with rfl | he'
    · exact h1
    · have hk : lbOk (some k) e.1 = true := ih h3 e he'
      simp only [lbOk, decide_eq_true_eq] at hk
      exact lbOk_of_lt h1 hk

theorem okL_all_ub {lo hi : Option Int} {l : List Entry}
    (h : okL lo hi l = true) : ∀ e ∈ l, ubOk hi e.1 = true := by
  induction l generalizing lo with
  | nil => simp
  | cons a tl ih =>
    obtain ⟨k, w⟩ := a
    simp only [okL, Bool.and_eq_true] at h
    obtain ⟨⟨h1, h2⟩, h3⟩ := h
    intro e he
    rcases List.mem_cons.1 he with rfl | he'
    · exact h2
    · exact ih h3 e he'

theorem okL_glue {lo hi : Option Int} {k v : Int} {l1 l2 : List Entry}
    (h1 : okL lo (some k) l1 = true) (hlb : lbOk lo k = true)
    (hub : ubOk hi k = true) (h2 : okL (some k) hi l2 = true) :
    okL lo hi (l1 ++ (k, v) :: l2) = true := by
  induction l1 generalizing lo with
  | nil => simp only [List.nil_append, okL, Bool.and_eq_true]; exact ⟨⟨hlb, hub⟩, h2⟩
  | cons a l1' ih =>
    obtain ⟨ka, va⟩ := a
    simp only [okL, Bool.and_eq_true] at h1
    obtain ⟨⟨ha1, ha2⟩, ha3⟩ := h1
    have hak : ka < k := by simpa [ubOk] using ha2
    simp only [List.cons_append, okL, Bool.and_eq_true]
    exact ⟨⟨ha1, ubOk_of_lt hub hak⟩, ih ha3 (by simpa [lbOk] using hak)⟩

theorem okL_split {lo hi : Option Int} {l : List Entry} {n : Nat} {k v : Int}
    (h : okL lo hi l = true) (hg : l.get? n = some (k, v)) :
    okL lo (some k) (l.take n) = true ∧ lbOk lo k = true ∧
    ubOk hi k = true ∧ okL (some k) hi (l.drop (n + 1)) = true := by
  induction l generalizing lo n with
  | nil => simp [List.get?] at hg
  | cons a tl ih =>
    obtain ⟨ka, va⟩ := a
    simp only [okL, Bool.and_eq_true] at h
    obtain ⟨⟨h1, h2⟩, h3⟩ := h
    cases n with
    | zero =>
      simp only [List.get?] at hg
      obtain ⟨rfl, rfl⟩ : ka = k ∧ va = v := by
        constructor <;> (injection hg with hh; cases hh; rfl)
      exact ⟨rfl, h1, h2, by simpa using h3⟩
    | succ m =>
      simp only [List.get?] at hg
      obtain ⟨ihtake, ihlb, ihub, ihdrop⟩ := ih h3 hg
      have hkak : ka < k := by simpa [lbOk] using ihlb
      refine ⟨?_, lbOk_of_lt h1 hkak, ihub, by simpa using ihdrop⟩
      simp only [List.take_succ_cons, okL, Bool.and_eq_true]
      exact ⟨⟨h1, by simpa [ubOk] using hkak⟩, ihtake⟩

theorem okL_chain {lo hi : Option Int} {l : List Entry}
    (h : okL lo hi l = true) : List.Chain' (· < ·) (l.map Prod.fst) := by
  induction l generalizing lo with
  | nil => simp
  | cons a tl ih =>
    obtain ⟨ka, va⟩ := a
    simp only [okL, Bool.and_eq_true] at h
    obtain ⟨⟨h1, h2⟩, h3⟩ := h
    simp only [List.map_cons]
    refine List.Chain'.cons' (ih h3) ?_
    intro y hy
    have hy' : y ∈ tl.map Prod.fst := List.mem_of_mem_head? hy
    obtain ⟨e, he, rfl⟩ := List.mem_map.1 hy'
    simpa [lbOk] using okL_all_lb h3 e he

theorem lookupL_none_iff {key : Int} {l : List Entry} :
    lookupL key l = none ↔ key ∉ l.map Prod.fst := by
  induction l with
  | nil => simp [lookupL]
  | cons a tl ih =>
    obtain ⟨ka, va⟩ := a
    simp only [lookupL, List.map_cons, List.mem_cons]
    split_ifs with hk
    · simp [hk]
    · simp [hk, ih]

theorem okL_lookup_none {a : Int} {hi : Option Int} {l : List Entry}
    (h : okL (some a) hi l = true) {key : Int} (hk : key ≤ a) :
    lookupL key l = none := by
  rw [lookupL_none_iff]
  intro hmem
  obtain ⟨e, he, rfl⟩ := List.mem_map.1 hmem
  have hlb := okL_all_lb h e he
  simp only [lbOk, decide_eq_true_eq] at hlb
  omega

theorem linsert_map_fst {key v x : Int} {l : List Entry} :
    x ∈ (linsert key v l).map Prod.fst ↔ x = key ∨ x ∈ l.map Prod.fst := by
  induction l with
  | nil => simp [linsert]
  | cons a tl ih =>
    obtain ⟨ka, va⟩ := a
    simp only [linsert]
    split_ifs with h1 h2
    · simp only [List.map_cons, List.mem_cons]
    · subst h2
      simp only [List.map_cons, List.mem_cons]
      constructor
      · intro hx; exact Or.inr hx
      · rintro (rfl | hx)
        · exact Or.inl rfl
        · exact hx
    · simp only [List.map_cons, List.mem_cons, ih]; tauto

theorem linsert_length {lo hi : Option Int} {key v : Int} {l : List Entry}
    (h : okL lo hi l = true) :
    (linsert key v l).length =
      if lookupL key l = none then l.length + 1 else l.length := by
  induction l generalizing lo with
  | nil => simp [linsert, lookupL]
  | cons a tl ih =>
    obtain ⟨ka, va⟩ := a
    simp only [okL, Bool.and_eq_true] at h
    obtain ⟨⟨h1, h2⟩, h3⟩ := h
    simp only [linsert, lookupL]
    by_cases hlt : key < ka
    · have hne : ¬key = ka := by omega
      have hnone : lookupL key tl = none := okL_lookup_none h3 (le_of_lt hlt)
      simp [hlt, hne, hnone]
    · by_cases heq : key = ka
      · simp [hlt, heq]
      · simp only [hlt, heq, if_false, ih h3, List.length_cons, if_neg heq]
        split_ifs <;> omega

theorem linsert_okL {lo hi : Option Int} {key v : Int} {l : List Entry}
    (h : okL lo hi l = true) (hlb : lbOk lo key = true)
    (hub : ubOk hi key = true) : okL lo hi (linsert key v l) = true := by
  induction l generalizing lo with
  | nil => simp [linsert, okL, hlb, hub]
  | cons a tl ih =>
    obtain ⟨ka, va⟩ := a
    simp only [okL, Bool.and_eq_true] at h
    obtain ⟨⟨h1, h2⟩, h3⟩ := h
    simp only [linsert]
    split_ifs with hc1 hc2
    · simp only [okL, Bool.and_eq_true]
      refine ⟨⟨hlb, hub⟩, ⟨⟨by simpa [lbOk] using hc1, h2⟩, h3⟩⟩
    · subst hc2
      simp only [okL, Bool.and_eq_true]
      exact ⟨⟨h1, h2⟩, h3⟩
    · simp only [okL, Bool.and_eq_true]
      exact ⟨⟨h1, h2⟩, ih h3 (by simp only [lbOk, decide_eq_true_eq]; omega)⟩

theorem linsert_pos {key v : Int} {l : List Entry} :
    0 < (linsert key v l).length := by
  induction l with
  | nil => simp [linsert]
  | cons a tl ih =>
    obtain ⟨ka, va⟩ := a
    simp only [linsert]
    split_ifs <;> simp

theorem leafIns_eq {lo hi : Option Int} {key v : Int} {kvs : List Entry}
    (h : okL lo hi kvs = true) :
    leafIns key v kvs = (lookupL key kvs, linsert key v kvs) := by
  induction kvs generalizing lo with
  | nil => simp [leafIns, lookupL, linsert]
  | cons a tl ih =>
    obtain ⟨ka, va⟩ := a
    simp only [okL, Bool.and_eq_true] at h
    obtain ⟨⟨h1, h2⟩, h3⟩ := h
    by_cases hlt : key < ka
    · have hne : ¬key = ka := by omega
      have hnone : lookupL key tl = none := okL_lookup_none h3 (le_of_lt hlt)
      simp [leafIns, linsert, lookupL, cmp_lt_iff, cmp_eq_iff, hlt, hne, hnone]
    · by_cases heq : key = ka
      · simp [leafIns, linsert, lookupL, cmp_lt_iff, cmp_eq_iff, hlt, heq]
      · simp [leafIns, linsert, lookupL, cmp_lt_iff, cmp_eq_iff, hlt, heq, ih h3]

/-! ## Entry-list splitting lemmas -/

theorem EL.len_take : ∀ (n : Nat) (l : EL), (EL.take n l).len = min n l.len
  | 0, _ => by simp [EL.take, EL.len]
  | _ + 1, .nil => by simp [EL.take, EL.len]
  | n + 1, .cons k v c tl => by
    have h := EL.len_take n tl
    simp only [EL.take, EL.len, h]
    omega

theorem EL.len_drop : ∀ (n : Nat) (l : EL), (EL.drop n l).len = l.len - n
  | 0, _ => by simp [EL.drop]
  | _ + 1, .nil => by simp [EL.drop, EL.len]
  | n + 1, .cons k v c tl => by
    have h := EL.len_drop n tl
    simp only [EL.drop, EL.len, h]
    omega

theorem EL.get?_lt : ∀ (n : Nat) (l : EL), n < l.len →
    ∃ k v c, l.get? n = some (k, v, c)
  | _, .nil, h => by simp [EL.len] at h
  | 0, .cons k v c tl, _ => ⟨k, v, c, rfl⟩
  | n + 1, .cons k v c tl, h => by
    have h' : n < tl.len := by simpa [EL.len] using h
    simpa [EL.get?] using EL.get?_lt n tl h'

theorem entriesAux_split : ∀ (n : Nat) (l : EL) (k v : Int) (cB : BT),
    l.get? n = some (k, v, cB) →
    entriesAux (l.take n) ++ (k, v) ::
      (entriesOf cB ++ entriesAux (l.drop (n + 1))) = entriesAux l
  | _, .nil, _, _, _, hg => by simp [EL.get?] at hg
  | 0, .cons k' v' c' tl, k, v, cB, hg => by
    obtain ⟨rfl, rfl, rfl⟩ : k' = k ∧ v' = v ∧ c' = cB := by
      simpa [EL.get?] using hg
    simp [EL.take, EL.drop, entriesAux]
  | n + 1, .cons k' v' c' tl, k, v, cB, hg => by
    have hg' : tl.get? n = some (k, v, cB) := by simpa [EL.get?] using hg
    have h := entriesAux_split n tl k v cB hg'
    simp only [EL.take, EL.drop, entriesAux, List.cons_append,
      List.append_assoc] at h ⊢
    rw [h]

theorem goodAux_split : ∀ (n : Nat) (l : EL) (c : BT) (lo hi : Option Int)
    (k v : Int) (cB : BT),
    goodAux lo hi c l = true → l.get? n = some (k, v, cB) →
    goodAux lo (some k) c (l.take n) = true ∧ lbOk lo k = true ∧
    ubOk hi k = true ∧ goodAux (some k) hi cB (l.drop (n + 1)) = true
  | _, .nil, _, _, _, _, _, _, _, hg => by simp [EL.get?] at hg
  | 0, .cons k' v' c' tl, c, lo, hi, k, v, cB, hga, hg => by
    obtain ⟨rfl, rfl, rfl⟩ : k' = k ∧ v' = v ∧ c' = cB := by
      simpa [EL.get?] using hg
    simp only [goodAux, Bool.and_eq_true] at hga
    obtain ⟨⟨⟨h1, h2⟩, h3⟩, h4⟩ := hga
    exact ⟨by simpa [EL.take, goodAux] using h3, h1, h2,
      by simpa [EL.drop] using h4⟩
  | n + 1, .cons k' v' c' tl, c, lo, hi, k, v, cB, hga, hg => by
    have hg' : tl.get? n = some (k, v, cB) := by simpa [EL.get?] using hg
    simp only [goodAux, Bool.and_eq_true] at hga
    obtain ⟨⟨⟨h1, h2⟩, h3⟩, h4⟩ := hga
    obtain ⟨ih1, ih2, ih3, ih4⟩ := goodAux_split n tl c' (some k') hi k v cB h4 hg'
    have hk'k : k' < k := by simpa [lbOk] using ih2
    refine ⟨?_, lbOk_of_lt h1 hk'k, ih3, by simpa [EL.drop] using ih4⟩
    simp only [EL.take, goodAux, Bool.and_eq_true]
    exact ⟨⟨⟨h1, by simpa [ubOk] using hk'k⟩, h3⟩, ih1⟩

theorem nzAllAux_take : ∀ (n : Nat) (l : EL) (c : BT),
    nzAllAux c l = true → nzAllAux c (l.take n) = true
  | 0, .nil, c, h => by simpa [EL.take] using h
  | 0, .cons k v c1 tl, c, h => by
    simp only [nzAllAux, Bool.and_eq_true] at h
    simpa [EL.take, nzAllAux] using h.1
  | _ + 1, .nil, c, h => by simpa [EL.take] using h
  | n + 1, .cons k v c1 tl, c, h => by
    simp only [nzAllAux, Bool.and_eq_true] at h
    simp only [EL.take, nzAllAux, Bool.and_eq_true]
    exact ⟨h.1, nzAllAux_take n tl c1 h.2⟩

theorem nzAllAux_drop : ∀ (n : Nat) (l : EL) (c : BT) (k v : Int) (cB : BT),
    nzAllAux c l = true → l.get? n = some (k, v, cB) →
    nzAllAux cB (l.drop (n + 1)) = true
  | _, .nil, _, _, _, _, _, hg => by simp [EL.get?] at hg
  | 0, .cons k' v' c' tl, c, k, v, cB, h, hg => by
    obtain ⟨rfl, rfl, rfl⟩ : k' = k ∧ v' = v ∧ c' = cB := by
      simpa [EL.get?] using hg
    simp only [nzAllAux, Bool.and_eq_true] at h
    simpa [EL.drop] using h.2
  | n + 1, .cons k' v' c' tl, c, k, v, cB, h, hg => by
    have hg' : tl.get? n = some (k, v, cB) := by simpa [EL.get?] using hg
    simp only [nzAllAux, Bool.and_eq_true] at h
    simpa [EL.drop] using nzAllAux_drop n tl c' k v cB h.2 hg'

theorem usageLeAux_take : ∀ (n : Nat) (l : EL) (m : Nat) (c : BT),
    usageLeAux m c l = true → usageLeAux m c (l.take n) = true
  | 0, .nil, m, c, h => by simpa [EL.take] using h
  | 0, .cons k v c1 tl, m, c, h => by
    simp only [usageLeAux, Bool.and_eq_true] at h
    simpa [EL.take, usageLeAux] using h.1
  | _ + 1, .nil, m, c, h => by simpa [EL.take] using h
  | n + 1, .cons k v c1 tl, m, c, h => by
    simp only [usageLeAux, Bool.and_eq_true] at h
    simp only [EL.take, usageLeAux, Bool.and_eq_true]
    exact ⟨h.1, usageLeAux_take n tl m c1 h.2⟩

theorem usageLeAux_drop : ∀ (n : Nat) (l : EL) (m : Nat) (c : BT) (k v : Int)
    (cB : BT), usageLeAux m c l = true → l.get? n = some (k, v, cB) →
    usageLeAux m cB (l.drop (n + 1)) = true
  | _, .nil, _, _, _, _, _, _, hg => by simp [EL.get?] at hg
  | 0, .cons k' v' c' tl, m, c, k, v, cB, h, hg => by
    obtain ⟨rfl, rfl, rfl⟩ : k' = k ∧ v' = v ∧ c' = cB := by
      simpa [EL.get?] using hg
    simp only [usageLeAux, Bool.and_eq_true] at h
    simpa [EL.drop] using h.2
  | n + 1, .cons k' v' c' tl, m, c, k, v, cB, h, hg => by
    have hg' : tl.get? n = some (k, v, cB) := by simpa [EL.get?] using hg
    simp only [usageLeAux, Bool.and_eq_true] at h
    simpa [EL.drop] using usageLeAux_drop n tl m c' k v cB h.2 hg'

theorem eqDepthAux_take : ∀ (n : Nat) (l : EL) (h : Nat),
    eqDepthAux l h = true → eqDepthAux (l.take n) h = true
  | 0, _, _, _ => by simp [EL.take, eqDepthAux]
  | _ + 1, .nil, _, hh => by simpa [EL.take] using hh
  | n + 1, .cons k v c1 tl, hd, hh => by
    simp only [eqDepthAux, Bool.and_eq_true] at hh
    simp only [EL.take, eqDepthAux, Bool.and_eq_true]
    exact ⟨hh.1, eqDepthAux_take n tl hd hh.2⟩

theorem eqDepthAux_drop : ∀ (n : Nat) (l : EL) (h : Nat) (k v : Int) (cB : BT),
    eqDepthAux l h = true → l.get? n = some (k, v, cB) →
    eqDepth cB h = true ∧ eqDepthAux (l.drop (n + 1)) h = true
  | _, .nil, _, _, _, _, _, hg => by simp [EL.get?] at hg
  | 0, .cons k' v' c' tl, hd, k, v, cB, hh, hg => by
    obtain ⟨rfl, rfl, rfl⟩ : k' = k ∧ v' = v ∧ c' = cB := by
      simpa [EL.get?] using hg
    simp only [eqDepthAux, Bool.and_eq_true] at hh
    exact ⟨hh.1, by simpa [EL.drop] using hh.2⟩
  | n + 1, .cons k' v' c' tl, hd, k, v, cB, hh, hg => by
    have hg' : tl.get? n = some (k, v, cB) := by simpa [EL.get?] using hg
    simp only [eqDepthAux, Bool.and_eq_true] at hh
    have hrec := eqDepthAux_drop n tl hd k v cB hh.2 hg'
    exact ⟨hrec.1, by simpa [EL.drop] using hrec.2⟩

/-! ## Flattening preserves the ordering window -/

mutual

theorem good_flat : ∀ (t : BT) {lo hi : Option Int}, good lo hi t = true →
    okL lo hi (entriesOf t) = true
  | .leaf kvs, _, _, h => by simpa [good, entriesOf] using h
  | .node c0 rest, _, _, h => by
    simpa [entriesOf] using goodAux_flat c0 rest (by simpa [good] using h)
termination_by t => sizeOf t
decreasing_by all_goals (simp_wf; try omega)

theorem goodAux_flat : ∀ (c : BT) (l : EL) {lo hi : Option Int},
    goodAux lo hi c l = true →
    okL lo hi (entriesOf c ++ entriesAux l) = true
  | c, .nil, _, _, h => by
    simpa [entriesAux] using good_flat c (by simpa [goodAux] using h)
  | c, .cons k v c1 tl, _, _, h => by
    simp only [goodAux, Bool.and_eq_true] at h
    obtain ⟨⟨⟨h1, h2⟩, h3⟩, h4⟩ := h
    simp only [entriesAux]
    exact okL_glue (good_flat c h3) h1 h2 (goodAux_flat c1 tl h4)
termination_by c l => sizeOf c + sizeOf l
decreasing_by all_goals (simp_wf; try omega)

end

/-! ## Lookup and insert across an append at a routing key -/

theorem okL_lookup_none_ub {b : Int} {lo : Option Int} {l : List Entry}
    (h : okL lo (some b) l = true) {key : Int} (hk : b ≤ key) :
    lookupL key l = none := by
  rw [lookupL_none_iff]
  intro hmem
  obtain ⟨e, he, rfl⟩ := List.mem_map.1 hmem
  have hub := okL_all_ub h e he
  simp only [ubOk, decide_eq_true_eq] at hub
  omega

theorem lookupL_append {key : Int} {l1 l2 : List Entry} :
    lookupL key (l1 ++ l2) =
      match lookupL key l1 with
      | some w => some w
      | none => lookupL key l2 := by
  induction l1 with
  | nil => simp [lookupL]
  | cons a tl ih =>
    obtain ⟨ka, va⟩ := a
    simp only [List.cons_append, lookupL]
    split_ifs with hk
    · rfl
    · exact ih

theorem lookup_append_lt {key k0 : Int} {w : Int} {hi : Option Int}
    {l1 l2 : List Entry} (hlt : key < k0) (h2 : okL (some k0) hi l2 = true) :
    lookupL key (l1 ++ (k0, w) :: l2) = lookupL key l1 := by
  rw [lookupL_append]
  have hn : lookupL key ((k0, w) :: l2) = none := by
    simp only [lookupL, if_neg (by omega : ¬key = k0)]
    exact okL_lookup_none h2 (le_of_lt hlt)
  rw [hn]
  cases lookupL key l1 <;> rfl

theorem lookup_append_ge {key k0 : Int} {w : Int} {lo : Option Int}
    {l1 l2 : List Entry} (hge : k0 ≤ key) (h1 : okL lo (some k0) l1 = true) :
    lookupL key (l1 ++ (k0, w) :: l2) =
      if key = k0 then some w else lookupL key l2 := by
  rw [lookupL_append, okL_lookup_none_ub h1 hge]
  simp [lookupL]

theorem linsert_append_lt {key v k0 w : Int} {l1 l2 : List Entry}
    (hlt : key < k0) :
    linsert key v (l1 ++ (k0, w) :: l2) = linsert key v l1 ++ (k0, w) :: l2 := by
  induction l1 with
  | nil => simp [linsert, hlt]
  | cons a tl ih =>
    obtain ⟨ka, va⟩ := a
    simp only [List.cons_append, linsert]
    split_ifs <;> simp [ih]

theorem linsert_append_eq {k0 v w : Int} {lo : Option Int} {l1 l2 : List Entry}
    (h1 : okL lo (some k0) l1 = true) :
    linsert k0 v (l1 ++ (k0, w) :: l2) = l1 ++ (k0, v) :: l2 := by
  induction l1 generalizing lo with
  | nil => simp [linsert]
  | cons a tl ih =>
    obtain ⟨ka, va⟩ := a
    simp only [okL, Bool.and_eq_true] at h1
    obtain ⟨⟨hh1, hh2⟩, hh3⟩ := h1
    have hka : ka < k0 := by simpa [ubOk] using hh2
    simp only [List.cons_append, linsert, if_neg (by omega : ¬k0 < ka),
      if_neg (by omega : ¬k0 = ka), List.append_eq]
    rw [ih hh3]

theorem linsert_append_gt {key v k0 w : Int} {lo : Option Int}
    {l1 l2 : List Entry} (h1 : okL lo (some k0) l1 = true) (hgt : k0 < key) :
    linsert key v (l1 ++ (k0, w) :: l2) = l1 ++ (k0, w) :: linsert key v l2 := by
  induction l1 generalizing lo with
  | nil => simp [linsert, if_neg (by omega : ¬key < k0), if_neg (by omega : ¬key = k0)]
  | cons a tl ih =>
    obtain ⟨ka, va⟩ := a
    simp only [okL, Bool.and_eq_true] at h1
    obtain ⟨⟨hh1, hh2⟩, hh3⟩ := h1
    have hka : ka < k0 := by simpa [ubOk] using hh2
    simp only [List.cons_append, linsert, if_neg (by omega : ¬key < ka),
      if_neg (by omega : ¬key = ka), List.append_eq]
    rw [ih hh3]

/-! ## The insert contract: refinement to the flat map, invariant preservation -/

set_option maxHeartbeats 1000000

mutual

theorem insertN_ok : ∀ (t : BT) (B : Nat) (key v : Int) (lo hi : Option Int)
    (hd : Nat), 2 ≤ B → good lo hi t = true → lbOk lo key = true →
    ubOk hi key = true → nzAll t = true → usageLe (2 * B - 2) t = true →
    eqDepth t hd = true →
    InsOk B key lo hi hd (entriesOf t) v (insertN B key v t)
  | .leaf kvs, B, key, v, lo, hi, hd, hB, hg, hlb, hub, hnz, hle, hdep => by
    simp only [good] at hg
    simp only [nzAll, decide_eq_true_eq] at hnz
    simp only [usageLe, decide_eq_true_eq] at hle
    have hd0 : hd = 0 := by simpa [eqDepth] using hdep
    subst hd0
    have hlen := @linsert_length lo hi key v kvs hg
    simp only [entriesOf]
    cases hlk : lookupL key kvs with
    | some w =>
      have hcomp : insertN B key v (.leaf kvs) =
          (some w, .ok (.leaf (linsert key v kvs))) := by
        simp only [insertN, leafIns_eq hg, hlk]
      rw [hcomp]
      rw [hlk] at hlen
      simp only [reduceCtorEq, if_neg] at hlen
      refine ⟨hlk.symm, by simp only [entriesOf],
        by simpa only [good] using linsert_okL hg hlb hub, ?_, ?_, ?_⟩
      · simp only [nzAll, decide_eq_true_eq]
        exact linsert_pos
      · simp only [usageLe, decide_eq_true_eq, hlen]
        exact hle
      · simp only [eqDepth, decide_eq_true_eq]
    | none =>
      rw [hlk] at hlen
      simp only [if_pos] at hlen
      by_cases hfull : (linsert key v kvs).length = 2 * B - 1
      · cases hget : (linsert key v kvs).get? (B - 1) with
        | none =>
          exfalso
          have := List.get?_eq_none.1 hget
          omega
        | some e =>
          obtain ⟨k, w⟩ := e
          have hcomp : insertN B key v (.leaf kvs) =
              (none, .split (.leaf ((linsert key v kvs).take (B - 1))) k w
                (.leaf ((linsert key v kvs).drop B))) := by
            simp only [insertN, leafIns_eq hg, hlk, if_pos hfull, splitLeaf, hget]
          rw [hcomp]
          obtain ⟨hok1, hok2, hok3, hok4⟩ :=
            okL_split (linsert_okL hg hlb hub) hget
          have hB1 : B - 1 + 1 = B := by omega
          rw [hB1] at hok4
          refine ⟨hlk.symm, ?_, by simpa only [good] using hok1,
            by simpa only [good] using hok4, hok2, hok3, ?_, ?_, ?_, ?_,
            by simp [eqDepth], by simp [eqDepth], ?_, ?_⟩
          · simp only [entriesOf]
            have hlt : B - 1 < (linsert key v kvs).length := by omega
            have hgetel : (linsert key v kvs)[B - 1] = (k, w) := by
              have h2 := (List.get?_eq_getElem? (linsert key v kvs) (B - 1)).symm.trans hget
              simpa [List.getElem?_eq_getElem hlt] using h2
            have hdropeq : (linsert key v kvs).drop (B - 1) =
                (k, w) :: (linsert key v kvs).drop B := by
              rw [List.drop_eq_getElem_cons hlt, hgetel, hB1]
            rw [← hdropeq]
            exact List.take_append_drop (B - 1) (linsert key v kvs)
          · simp only [nzAll, decide_eq_true_eq, List.length_take]
            omega
          · simp only [nzAll, decide_eq_true_eq, List.length_drop]
            omega
          · simp only [usageLe, decide_eq_true_eq, List.length_take]
            omega
          · simp only [usageLe, decide_eq_true_eq, List.length_drop]
            omega
          · simp only [usageOf, List.length_take]
            omega
          · simp only [usageOf, List.length_drop]
            omega
      · have hcomp : insertN B key v (.leaf kvs) =
            (none, .ok (.leaf (linsert key v kvs))) := by
          simp only [insertN, leafIns_eq hg, hlk, if_neg hfull]
        rw [hcomp]
        refine ⟨hlk.symm, by simp only [entriesOf],
          by simpa only [good] using linsert_okL hg hlb hub, ?_, ?_, ?_⟩
        · simp only [nzAll, decide_eq_true_eq]
          exact linsert_pos
        · simp only [usageLe, decide_eq_true_eq]
          omega
        · simp only [eqDepth, decide_eq_true_eq]
  | .node c0 rest, B, key, v, lo, hi, hd, hB, hg, hlb, hub, hnz, hle, hdep => by
    simp only [good] at hg
    simp only [nzAll, Bool.and_eq_true, decide_eq_true_eq] at hnz
    simp only [usageLe, Bool.and_eq_true, decide_eq_true_eq] at hle
    cases hd with
    | zero => simp [eqDepth] at hdep
    | succ hD =>
      simp only [eqDepth, Bool.and_eq_true] at hdep
      obtain ⟨hdc0, hdrest⟩ := hdep
      have haux := insAux_ok c0 rest B key v lo hi hD hB hg hlb hub hnz.2
        hle.2 hdc0 hdrest
      rcases hres : insAux B key v c0 rest with ⟨old, c0', rest', ad⟩
      rw [hres] at haux
      obtain ⟨ha1, ha2, ha3, ha4, ha5, ha6, ha7, ha8⟩ := haux
      have hbounds : rest.len ≤ rest'.len ∧ rest'.len ≤ rest.len + 1 := by
        cases ad <;> simp at ha8 <;> omega
      by_cases hsplit : ad = true ∧ rest'.len = 2 * B - 1
      · obtain ⟨k, w, cB, hget⟩ := EL.get?_lt (B - 1) rest' (by omega)
        have hcomp : insertN B key v (.node c0 rest) =
            (old, .split (.node c0' (rest'.take (B - 1))) k w
              (.node cB (rest'.drop B))) := by
          simp only [insertN, hres, if_pos hsplit, splitNode, hget]
        rw [hcomp]
        have hB1 : B - 1 + 1 = B := by omega
        obtain ⟨hs1, hs2, hs3, hs4⟩ :=
          goodAux_split (B - 1) rest' c0' lo hi k w cB ha3 hget
        rw [hB1] at hs4
        have hflat := entriesAux_split (B - 1) rest' k w cB hget
        rw [hB1] at hflat
        refine ⟨by simpa [entriesOf] using ha1, ?_,
          by simpa only [good] using hs1, by simpa only [good] using hs4,
          hs2, hs3, ?_, ?_, ?_, ?_, ?_, ?_, ?_, ?_⟩
        · simp only [entriesOf]
          rw [← ha2, ← hflat]
          simp [List.append_assoc]
        · simp only [nzAll, Bool.and_eq_true, decide_eq_true_eq]
          refine ⟨by rw [EL.len_take]; omega, nzAllAux_take (B - 1) rest' c0' ha4⟩
        · simp only [nzAll, Bool.and_eq_true, decide_eq_true_eq]
          refine ⟨by rw [EL.len_drop]; omega, ?_⟩
          have hnd := nzAllAux_drop (B - 1) rest' c0' k w cB ha4 hget
          rwa [hB1] at hnd
        · simp only [usageLe, Bool.and_eq_true, decide_eq_true_eq]
          refine ⟨by rw [EL.len_take]; omega,
            usageLeAux_take (B - 1) rest' (2 * B - 2) c0' ha5⟩
        · simp only [usageLe, Bool.and_eq_true, decide_eq_true_eq]
          refine ⟨by rw [EL.len_drop]; omega, ?_⟩
          have hud := usageLeAux_drop (B - 1) rest' (2 * B - 2) c0' k w cB ha5 hget
          rwa [hB1] at hud
        · simp only [eqDepth, Bool.and_eq_true]
          exact ⟨ha6, eqDepthAux_take (B - 1) rest' hD ha7⟩
        · simp only [eqDepth, Bool.and_eq_true]
          obtain ⟨hdB, hdrop⟩ := eqDepthAux_drop (B - 1) rest' hD k w cB ha7 hget
          rw [hB1] at hdrop
          exact ⟨hdB, hdrop⟩
        · simp only [usageOf, EL.len_take]
          omega
        · simp only [usageOf, EL.len_drop]
          omega
      · have hcomp : insertN B key v (.node c0 rest) =
            (old, .ok (.node c0' rest')) := by
          simp only [insertN, hres, if_neg hsplit]
        rw [hcomp]
        rw [not_and] at hsplit
        refine ⟨by simpa [entriesOf] using ha1, by simpa [entriesOf] using ha2,
          by simpa only [good] using ha3, ?_, ?_, ?_⟩
        · simp only [nzAll, Bool.and_eq_true, decide_eq_true_eq]
          exact ⟨by omega, ha4⟩
        · simp only [usageLe, Bool.and_eq_true, decide_eq_true_eq]
          refine ⟨?_, ha5⟩
          cases ad with
          | false => simp at ha8; omega
          | true => simp at ha8; have := hsplit rfl; omega
        · simp only [eqDepth, Bool.and_eq_true]
          exact ⟨ha6, ha7⟩
termination_by t _ _ _ _ _ _ _ _ _ _ _ _ _ => sizeOf t
decreasing_by all_goals (simp_wf; try omega)

theorem insAux_ok : ∀ (c : BT) (rest : EL) (B : Nat) (key v : Int)
    (lo hi : Option Int) (hd : Nat), 2 ≤ B → goodAux lo hi c rest = true →
    lbOk lo key = true → ubOk hi key = true → nzAllAux c rest = true →
    usageLeAux (2 * B - 2) c rest = true → eqDepth c hd = true →
    eqDepthAux rest hd = true →
    AuxOk B key lo hi hd rest.len (entriesOf c ++ entriesAux rest) v
      (insAux B key v c rest)
  | c, .nil, B, key, v, lo, hi, hd, hB, hg, hlb, hub, hnz, hle, hdc, hdrest => by
    simp only [goodAux] at hg
    simp only [nzAllAux] at hnz
    simp only [usageLeAux] at hle
    have hins := insertN_ok c B key v lo hi hd hB hg hlb hub hnz hle hdc
    rcases hres : insertN B key v c with ⟨old, ri⟩
    rw [hres] at hins
    cases ri with
    | ok c' =>
      obtain ⟨h1, h2, h3, h4, h5, h6⟩ := hins
      have hcomp : insAux B key v c .nil = (old, c', .nil, false) := by
        simp only [insAux, hres]
      rw [hcomp]
      exact ⟨by simpa [entriesAux] using h1, by simpa [entriesAux] using h2,
        by simpa [goodAux] using h3, by simpa [nzAllAux] using h4,
        by simpa [usageLeAux] using h5, h6, by simp [eqDepthAux],
        by simp [EL.len]⟩
    | split l pk pv r =>
      obtain ⟨h1, h2, h3, h4, h5, h6, h7, h8, h9, h10, h11, h12, h13, h14⟩ := hins
      have hcomp : insAux B key v c .nil = (old, l, .cons pk pv r .nil, true) := by
        simp only [insAux, hres]
      rw [hcomp]
      refine ⟨by simpa [entriesAux] using h1, ?_, ?_, ?_, ?_, h11, ?_,
        by simp [EL.len]⟩
      · simp only [entriesAux, List.append_nil, List.append_assoc] at h2 ⊢
        exact h2
      · simp only [goodAux, Bool.and_eq_true]
        exact ⟨⟨⟨h5, h6⟩, h3⟩, h4⟩
      · simp only [nzAllAux, Bool.and_eq_true]
        exact ⟨h7, h8⟩
      · simp only [usageLeAux, Bool.and_eq_true]
        exact ⟨h9, h10⟩
      · simp only [eqDepthAux, Bool.and_eq_true]
        exact ⟨h12, trivial⟩
  | c, .cons k0 v0 c1 tl, B, key, v, lo, hi, hd, hB, hg, hlb, hub, hnz, hle,
      hdc, hdrest => by
    simp only [goodAux, Bool.and_eq_true] at hg
    obtain ⟨⟨⟨g1, g2⟩, g3⟩, g4⟩ := hg
    simp only [nzAllAux, Bool.and_eq_true] at hnz
    obtain ⟨nz1, nz2⟩ := hnz
    simp only [usageLeAux, Bool.and_eq_true] at hle
    obtain ⟨le1, le2⟩ := hle
    simp only [eqDepthAux, Bool.and_eq_true] at hdrest
    obtain ⟨d1, d2⟩ := hdrest
    have hokA : okL lo (some k0) (entriesOf c) = true := good_flat c g3
    have hokL2 : okL (some k0) hi (entriesOf c1 ++ entriesAux tl) = true :=
      goodAux_flat c1 tl g4
    by_cases hlt : key < k0
    · have hins := insertN_ok c B key v lo (some k0) hd hB g3 hlb
        (by simpa [ubOk] using hlt) nz1 le1 hdc
      rcases hres : insertN B key v c with ⟨old, ri⟩
      rw [hres] at hins
      cases ri with
      | ok c' =>
        obtain ⟨h1, h2, h3, h4, h5, h6⟩ := hins
        have hcomp : insAux B key v c (.cons k0 v0 c1 tl) =
            (old, c', .cons k0 v0 c1 tl, false) := by
          simp only [insAux, if_pos ((cmp_lt_iff key k0).2 hlt), hres]
        rw [hcomp]
        refine ⟨?_, ?_, ?_, ?_, ?_, h6, ?_, by simp⟩
        · rw [show entriesAux (.cons k0 v0 c1 tl) =
            (k0, v0) :: (entriesOf c1 ++ entriesAux tl) from by
              simp [entriesAux], lookup_append_lt hlt hokL2]
          exact h1
        · rw [show entriesAux (.cons k0 v0 c1 tl) =
            (k0, v0) :: (entriesOf c1 ++ entriesAux tl) from by simp [entriesAux],
            linsert_append_lt hlt, ← h2]
        · simp only [goodAux, Bool.and_eq_true]
          exact ⟨⟨⟨g1, g2⟩, h3⟩, g4⟩
        · simp only [nzAllAux, Bool.and_eq_true]
          exact ⟨h4, nz2⟩
        · simp only [usageLeAux, Bool.and_eq_true]
          exact ⟨h5, le2⟩
        · simp only [eqDepthAux, Bool.and_eq_true]
          exact ⟨d1, d2⟩
      | split l pk pv r =>
        obtain ⟨h1, h2, h3, h4, h5, h6, h7, h8, h9, h10, h11, h12, h13, h14⟩ := hins
        have hpkk0 : pk < k0 := by simpa [ubOk] using h6
        have hcomp : insAux B key v c (.cons k0 v0 c1 tl) =
            (old, l, .cons pk pv r (.cons k0 v0 c1 tl), true) := by
          simp only [insAux, if_pos ((cmp_lt_iff key k0).2 hlt), hres]
        rw [hcomp]
        refine ⟨?_, ?_, ?_, ?_, ?_, h11, ?_, by simp [EL.len]⟩
        · rw [show entriesAux (.cons k0 v0 c1 tl) =
            (k0, v0) :: (entriesOf c1 ++ entriesAux tl) from by
              simp [entriesAux], lookup_append_lt hlt hokL2]
          exact h1
        · rw [show entriesAux (.cons k0 v0 c1 tl) =
            (k0, v0) :: (entriesOf c1 ++ entriesAux tl) from by simp [entriesAux],
            linsert_append_lt hlt, ← h2]
          simp [entriesAux, List.append_assoc]
        · simp only [goodAux, Bool.and_eq_true]
          exact ⟨⟨⟨h5, ubOk_of_lt g2 hpkk0⟩, h3⟩,
            ⟨⟨⟨by simpa [lbOk] using hpkk0, g2⟩, h4⟩, g4⟩⟩
        · simp only [nzAllAux, Bool.and_eq_true]
          exact ⟨h7, h8, nz2⟩
        · simp only [usageLeAux, Bool.and_eq_true]
          exact ⟨h9, h10, le2⟩
        · simp only [eqDepthAux, Bool.and_eq_true]
          exact ⟨h12, d1, d2⟩
    · by_cases heq : key = k0
      · have hcomp : insAux B key v c (.cons k0 v0 c1 tl) =
            (some v0, c, .cons k0 v c1 tl, false) := by
          simp only [insAux, if_neg (fun hc => hlt ((cmp_lt_iff key k0).1 hc)),
            if_pos ((cmp_eq_iff key k0).2 heq)]
        rw [hcomp]
        have hA : entriesAux (EL.cons k0 v0 c1 tl) =
            (k0, v0) :: (entriesOf c1 ++ entriesAux tl) := by simp [entriesAux]
        have hA2 : entriesAux (EL.cons k0 v c1 tl) =
            (k0, v) :: (entriesOf c1 ++ entriesAux tl) := by simp [entriesAux]
        refine ⟨?_, ?_, ?_, ?_, ?_, hdc, ?_, by simp [EL.len]⟩
        · rw [hA, lookup_append_ge (le_of_eq heq.symm) hokA, if_pos heq]
        · rw [hA, hA2]
          subst heq
          rw [linsert_append_eq hokA]
        · simp only [goodAux, Bool.and_eq_true]
          exact ⟨⟨⟨g1, g2⟩, g3⟩, g4⟩
        · simp only [nzAllAux, Bool.and_eq_true]
          exact ⟨nz1, nz2⟩
        · simp only [usageLeAux, Bool.and_eq_true]
          exact ⟨le1, le2⟩
        · simp only [eqDepthAux, Bool.and_eq_true]
          exact ⟨d1, d2⟩
      · have hgt : k0 < key := by omega
        have haux := insAux_ok c1 tl B key v (some k0) hi hd hB g4
          (by simpa [lbOk] using hgt) hub nz2 le2 d1 d2
        rcases hres : insAux B key v c1 tl with ⟨old, c1', tl', ad⟩
        rw [hres] at haux
        obtain ⟨ha1, ha2, ha3, ha4, ha5, ha6, ha7, ha8⟩ := haux
        have hcomp : insAux B key v c (.cons k0 v0 c1 tl) =
            (old, c, .cons k0 v0 c1' tl', ad) := by
          simp only [insAux, if_neg (fun hc => hlt ((cmp_lt_iff key k0).1 hc)),
            if_neg (fun hc => heq ((cmp_eq_iff key k0).1 hc)), hres]
        rw [hcomp]
        have hA : entriesAux (EL.cons k0 v0 c1 tl) =
            (k0, v0) :: (entriesOf c1 ++ entriesAux tl) := by simp [entriesAux]
        have hA2 : entriesAux (EL.cons k0 v0 c1' tl') =
            (k0, v0) :: (entriesOf c1' ++ entriesAux tl') := by simp [entriesAux]
        refine ⟨?_, ?_, ?_, ?_, ?_, hdc, ?_, ?_⟩
        · rw [hA, lookup_append_ge (le_of_lt hgt) hokA, if_neg heq]
          exact ha1
        · rw [hA, hA2, linsert_append_gt hokA hgt, ← ha2]
        · simp only [goodAux, Bool.and_eq_true]
          exact ⟨⟨⟨g1, g2⟩, g3⟩, ha3⟩
        · simp only [nzAllAux, Bool.and_eq_true]
          exact ⟨nz1, ha4⟩
        · simp only [usageLeAux, Bool.and_eq_true]
          exact ⟨le1, ha5⟩
        · simp only [eqDepthAux, Bool.and_eq_true]
          exact ⟨ha6, ha7⟩
        · cases ad <;> simp [EL.len] at ha8 ⊢ <;> omega
termination_by c rest _ _ _ _ _ _ _ _ _ _ _ _ _ _ => sizeOf c + sizeOf rest
decreasing_by all_goals (simp_wf; try omega)

end


/-! ## Tree-level invariant maintenance -/

theorem eqDepth_hgt : ∀ (t : BT) (h : Nat), eqDepth t h = true → hgt t = h
  | .leaf kvs, h, hh => by
    simp only [eqDepth, decide_eq_true_eq] at hh
    simp [hgt, hh]
  | .node c0 rest, 0, hh => by simp [eqDepth] at hh
  | .node c0 rest, h + 1, hh => by
    simp only [eqDepth, Bool.and_eq_true] at hh
    simp only [hgt, eqDepth_hgt c0 h hh.1]

theorem treeInsert_some (B : Nat) (key v : Int) (r : Option BT) :
    ∃ t', (treeInsert B key v r).2 = some t' := by
  cases r with
  | none => exact ⟨_, rfl⟩
  | some t =>
    simp only [treeInsert]
    rcases insertN B key v t with ⟨old, ri⟩
    cases ri with
    | ok t' => exact ⟨t', rfl⟩
    | split l k w rr => exact ⟨_, rfl⟩

theorem treeInsert_ok (B : Nat) (hB : 2 ≤ B) (key v : Int) (r : Option BT)
    (hr : Rooted B r) :
    Rooted B (treeInsert B key v r).2 ∧
    treeEntries (treeInsert B key v r).2 = linsert key v (treeEntries r) ∧
    (treeInsert B key v r).1 = lookupL key (treeEntries r) := by
  cases r with
  | none =>
    refine ⟨?_, by simp [treeInsert, treeEntries, entriesOf, linsert], by
      simp [treeInsert, treeEntries, lookupL]⟩
    refine ⟨?_, ?_, ?_, ?_⟩
    · simp [good, okL, lbOk, ubOk]
    · simp [nzAll]
    · simp only [usageLe, decide_eq_true_eq, List.length_cons,
        List.length_nil]
      omega
    · simp [hgt, eqDepth]
  | some t =>
    obtain ⟨hg, hnz, hle, hdep⟩ := hr
    have hins := insertN_ok t B key v none none (hgt t) hB hg rfl rfl hnz
      hle hdep
    rcases hres : insertN B key v t with ⟨old, ri⟩
    rw [hres] at hins
    cases ri with
    | ok t' =>
      obtain ⟨h1, h2, h3, h4, h5, h6⟩ := hins
      have hcomp : treeInsert B key v (some t) = (old, some t') := by
        simp only [treeInsert, hres]
      rw [hcomp]
      have hh : hgt t' = hgt t := eqDepth_hgt t' (hgt t) h6
      exact ⟨⟨h3, h4, h5, by rw [hh]; exact h6⟩, h2, h1⟩
    | split l k w rr =>
      obtain ⟨h1, h2, h3, h4, h5, h6, h7, h8, h9, h10, h11, h12, h13, h14⟩ := hins
      have hcomp : treeInsert B key v (some t) =
          (old, some (.node l (.cons k w rr .nil))) := by
        simp only [treeInsert, hres]
      rw [hcomp]
      have hhl : hgt l = hgt t := eqDepth_hgt l (hgt t) h11
      refine ⟨⟨?_, ?_, ?_, ?_⟩, ?_, h1⟩
      · simp only [good, goodAux, Bool.and_eq_true]
        exact ⟨⟨⟨rfl, rfl⟩, h3⟩, by simpa [goodAux] using h4⟩
      · simp only [nzAll, nzAllAux, EL.len, Bool.and_eq_true, decide_eq_true_eq]
        exact ⟨by omega, h7, by simpa [nzAllAux] using h8⟩
      · simp only [usageLe, usageLeAux, EL.len, Bool.and_eq_true,
          decide_eq_true_eq]
        exact ⟨by omega, h9, by simpa [usageLeAux] using h10⟩
      · simp only [hgt, hhl, eqDepth, eqDepthAux, Bool.and_eq_true]
        exact ⟨h11, h12, trivial⟩
      · simp only [treeEntries, entriesOf, entriesAux, List.append_nil]
        exact h2

theorem reach_fold (B : Nat) (hB : 2 ≤ B) :
    ∀ (seq : List Entry) (r : Option BT), Rooted B r →
    Rooted B (seq.foldl (fun r kv => (treeInsert B kv.1 kv.2 r).2) r) ∧
    treeEntries (seq.foldl (fun r kv => (treeInsert B kv.1 kv.2 r).2) r) =
      seq.foldl (fun l kv => linsert kv.1 kv.2 l) (treeEntries r) := by
  intro seq
  induction seq with
  | nil => exact fun r hr => ⟨hr, rfl⟩
  | cons kv seq ih =>
    intro r hr
    obtain ⟨h1, h2, h3⟩ := treeInsert_ok B hB kv.1 kv.2 r hr
    simp only [List.foldl_cons]
    obtain ⟨ih1, ih2⟩ := ih _ h1
    exact ⟨ih1, by rw [ih2, h2]⟩

theorem rooted_none (B : Nat) : Rooted B none := by
  simp [Rooted]

theorem reach_ok (B : Nat) (hB : 2 ≤ B) (seq : List Entry) :
    Rooted B (reach B seq) ∧ treeEntries (reach B seq) = flatOf seq :=
  reach_fold B hB seq none (rooted_none B)

theorem foldl_insert_some (B : Nat) :
    ∀ (seq : List Entry) (r : Option BT) (t : BT), r = some t →
    ∃ t', seq.foldl (fun r kv => (treeInsert B kv.1 kv.2 r).2) r = some t' := by
  intro seq
  induction seq with
  | nil => exact fun r t hr => ⟨t, hr⟩
  | cons kv seq ih =>
    intro r t hr
    obtain ⟨t2, ht2⟩ := treeInsert_some B kv.1 kv.2 r
    simp only [List.foldl_cons]
    exact ih _ t2 ht2

theorem reach_none_iff (B : Nat) (seq : List Entry) :
    reach B seq = none ↔ seq = [] := by
  constructor
  · intro h
    cases seq with
    | nil => rfl
    | cons kv seq =>
      exfalso
      obtain ⟨t1, ht1⟩ := treeInsert_some B kv.1 kv.2 none
      obtain ⟨t', ht'⟩ := foldl_insert_some B seq _ t1 ht1
      simp only [reach, List.foldl_cons] at h
      rw [ht'] at h
      cases h
  · intro h
    subst h
    rfl

theorem flat_mem (x : Int) : ∀ (seq acc : List Entry),
    x ∈ (seq.foldl (fun l kv => linsert kv.1 kv.2 l) acc).map Prod.fst ↔
      x ∈ acc.map Prod.fst ∨ x ∈ seq.map Prod.fst := by
  intro seq
  induction seq with
  | nil => simp
  | cons kv seq ih =>
    intro acc
    simp only [List.foldl_cons, List.map_cons, List.mem_cons]
    rw [ih, linsert_map_fst]
    tauto

theorem flatOf_mem (x : Int) (seq : List Entry) :
    x ∈ (flatOf seq).map Prod.fst ↔ x ∈ seq.map Prod.fst := by
  have h := flat_mem x seq []
  simpa [flatOf] using h


/-! ## Member correctness -/

theorem okL_mem_gt {a : Int} {hi : Option Int} {l : List Entry} {x : Int}
    (h : okL (some a) hi l = true) (hx : x ∈ l.map Prod.fst) : a < x := by
  obtain ⟨e, he, rfl⟩ := List.mem_map.1 hx
  simpa [lbOk] using okL_all_lb h e he

theorem okL_mem_lt {b : Int} {lo : Option Int} {l : List Entry} {x : Int}
    (h : okL lo (some b) l = true) (hx : x ∈ l.map Prod.fst) : x < b := by
  obtain ⟨e, he, rfl⟩ := List.mem_map.1 hx
  simpa [ubOk] using okL_all_ub h e he

theorem linSearch_found_iff {key : Int} : ∀ {kvs : List Entry}
    {lo hi : Option Int}, okL lo hi kvs = true →
    ((∃ i, linSearch key kvs = .found i) ↔ key ∈ kvs.map Prod.fst) := by
  intro kvs
  induction kvs with
  | nil => intro lo hi h; simp [linSearch]
  | cons a tl ih =>
    intro lo hi h
    obtain ⟨ka, va⟩ := a
    simp only [okL, Bool.and_eq_true] at h
    obtain ⟨⟨h1, h2⟩, h3⟩ := h
    by_cases hlt : key < ka
    · have hm : key ∉ tl.map Prod.fst := fun hx => by
        have := okL_mem_gt h3 hx; omega
      simp only [linSearch, if_pos ((cmp_lt_iff key ka).2 hlt), List.map_cons,
        List.mem_cons]
      constructor
      · rintro ⟨i, hi⟩; cases hi
      · rintro (rfl | hx)
        · omega
        · exact absurd hx hm
    · by_cases heq : key = ka
      · simp only [linSearch, if_neg (fun hc => hlt ((cmp_lt_iff key ka).1 hc)),
          if_pos ((cmp_eq_iff key ka).2 heq), List.map_cons, List.mem_cons]
        exact ⟨fun _ => Or.inl heq, fun _ => ⟨0, rfl⟩⟩
      · have hrec := ih h3
        simp only [linSearch, if_neg (fun hc => hlt ((cmp_lt_iff key ka).1 hc)),
          if_neg (fun hc => heq ((cmp_eq_iff key ka).1 hc)), List.map_cons,
          List.mem_cons]
        constructor
        · rintro ⟨i, hfound⟩
          rcases hls : linSearch key tl with j | j <;> rw [hls] at hfound
          · exact Or.inr (hrec.1 ⟨j, hls⟩)
          · cases hfound
        · rintro (rfl | hx)
          · exact absurd rfl heq
          · obtain ⟨j, hj⟩ := hrec.2 hx
            exact ⟨j + 1, by rw [hj]⟩

mutual

theorem memberN_ok : ∀ (t : BT) (key : Int) (lo hi : Option Int),
    good lo hi t = true → lbOk lo key = true → ubOk hi key = true →
    (memberN key t = true ↔ key ∈ (entriesOf t).map Prod.fst)
  | .leaf kvs, key, lo, hi, hg, hlb, hub => by
    simp only [good] at hg
    have hiff := @linSearch_found_iff key kvs lo hi hg
    simp only [memberN, entriesOf]
    rcases hls : linSearch key kvs with i | i
    · simp only [hls] at hiff ⊢
      exact ⟨fun _ => hiff.1 ⟨i, rfl⟩, fun _ => trivial⟩
    · simp only [hls] at hiff ⊢
      constructor
      · intro hfalse; cases hfalse
      · intro hx
        obtain ⟨j, hj⟩ := hiff.2 hx
        cases hj
  | .node c0 rest, key, lo, hi, hg, hlb, hub => by
    simp only [good] at hg
    simpa [entriesOf, memberN] using memAux_ok c0 rest key lo hi hg hlb hub
termination_by t => sizeOf t
decreasing_by all_goals (simp_wf; try omega)

theorem memAux_ok : ∀ (c : BT) (rest : EL) (key : Int) (lo hi : Option Int),
    goodAux lo hi c rest = true → lbOk lo key = true → ubOk hi key = true →
    (memAux key c rest = true ↔
      key ∈ (entriesOf c ++ entriesAux rest).map Prod.fst)
  | c, .nil, key, lo, hi, hg, hlb, hub => by
    simp only [goodAux] at hg
    simpa [memAux, entriesAux] using memberN_ok c key lo hi hg hlb hub
  | c, .cons k0 v0 c1 tl, key, lo, hi, hg, hlb, hub => by
    simp only [goodAux, Bool.and_eq_true] at hg
    obtain ⟨⟨⟨g1, g2⟩, g3⟩, g4⟩ := hg
    have hokA : okL lo (some k0) (entriesOf c) = true := good_flat c g3
    have hokL2 : okL (some k0) hi (entriesOf c1 ++ entriesAux tl) = true :=
      goodAux_flat c1 tl g4
    have hA : entriesAux (EL.cons k0 v0 c1 tl) =
        (k0, v0) :: (entriesOf c1 ++ entriesAux tl) := by simp [entriesAux]
    simp only [memAux, hA, List.map_append, List.mem_append, List.map_cons,
      List.mem_cons]
    by_cases hlt : key < k0
    · rw [if_pos ((cmp_lt_iff key k0).2 hlt)]
      rw [memberN_ok c key lo (some k0) g3 hlb (by simpa [ubOk] using hlt)]
      constructor
      · exact fun h => Or.inl h
      · rintro (h | rfl | h | h)
        · exact h
        · omega
        · exact absurd (okL_mem_gt hokL2 (by
            rw [List.map_append]; exact List.mem_append.2 (Or.inl h))) (by omega)
        · exact absurd (okL_mem_gt hokL2 (by
            rw [List.map_append]; exact List.mem_append.2 (Or.inr h))) (by omega)
    · by_cases heq : key = k0
      · rw [if_neg (fun hc => hlt ((cmp_lt_iff key k0).1 hc)),
          if_pos ((cmp_eq_iff key k0).2 heq)]
        exact ⟨fun _ => Or.inr (Or.inl heq), fun _ => rfl⟩
      · rw [if_neg (fun hc => hlt ((cmp_lt_iff key k0).1 hc)),
          if_neg (fun hc => heq ((cmp_eq_iff key k0).1 hc))]
        rw [memAux_ok c1 tl key (some k0) hi g4
          (by simp only [lbOk, decide_eq_true_eq]; omega) hub]
        simp only [List.map_append, List.mem_append]
        constructor
        · exact fun h => Or.inr (Or.inr h)
        · rintro (h | rfl | h)
          · exact absurd (okL_mem_lt hokA h) (by omega)
          · exact absurd rfl heq
          · exact h
termination_by c rest => sizeOf c + sizeOf rest
decreasing_by all_goals (simp_wf; try omega)

end


/-! ## Auxiliary count lemmas for splits and adoption -/

theorem okL_keys_nodup {lo hi : Option Int} {l : List Entry}
    (h : okL lo hi l = true) : (l.map Prod.fst).Nodup :=
  (List.chain'_iff_pairwise.1 (okL_chain h)).imp (fun hlt => ne_of_lt hlt)

theorem EL.get?_take : ∀ (j n : Nat) (l : EL), j < n →
    (l.take n).get? j = l.get? j
  | _, 0, _, h => by omega
  | _, _ + 1, .nil, _ => by simp [EL.take]
  | 0, n + 1, .cons k v c tl, _ => by simp [EL.take, EL.get?]
  | j + 1, n + 1, .cons k v c tl, h => by
    simp only [EL.take, EL.get?]
    exact EL.get?_take j n tl (by omega)

theorem EL.get?_drop : ∀ (m j : Nat) (l : EL),
    (l.drop m).get? j = l.get? (m + j)
  | 0, _, _ => by simp [EL.drop]
  | _ + 1, _, .nil => by simp [EL.drop, EL.get?]
  | m + 1, j, .cons k v c tl => by
    have hidx : m + 1 + j = (m + j) + 1 := by omega
    simp only [EL.drop, hidx, EL.get?]
    exact EL.get?_drop m j tl

theorem childAt_succ : ∀ (c : BT) (l : EL) (j : Nat),
    childAt c l (j + 1) = (l.get? j).map (fun e => e.2.2)
  | _, .nil, _ => by simp [childAt, EL.get?]
  | _, .cons k v c1 tl, 0 => by simp [childAt, EL.get?]
  | c, .cons k v c1 tl, j + 1 => by
    simp only [childAt, EL.get?]
    exact childAt_succ c1 tl j

theorem childAt_zero : ∀ (c0 : BT) (l : EL), childAt c0 l 0 = some c0
  | _, .nil => rfl
  | _, .cons _ _ _ _ => rfl

theorem insAux_len : ∀ (rest : EL) (c : BT) (B : Nat) (key v : Int)
    (old : Option Int) (c' : BT) (rest' : EL) (ad : Bool),
    insAux B key v c rest = (old, c', rest', ad) →
    rest'.len = rest.len + (if ad then 1 else 0)
  | .nil, c, B, key, v, old, c', rest', ad, h => by
    simp only [insAux] at h
    rcases hres : insertN B key v c with ⟨o, ri⟩
    rw [hres] at h
    cases ri with
    | ok cc =>
      cases h
      simp [EL.len]
    | split l pk pv r =>
      cases h
      simp [EL.len]
  | .cons k0 v0 c1 tl, c, B, key, v, old, c', rest', ad, h => by
    simp only [insAux] at h
    by_cases hlt : cmp key k0 < 0
    · rw [if_pos hlt] at h
      rcases hres : insertN B key v c with ⟨o, ri⟩
      rw [hres] at h
      cases ri with
      | ok cc =>
        cases h
        simp [EL.len]
      | split l pk pv r =>
        cases h
        simp [EL.len]
    · rw [if_neg hlt] at h
      by_cases heq : cmp key k0 = 0
      · rw [if_pos heq] at h
        cases h
        simp [EL.len]
      · rw [if_neg heq] at h
        rcases hres : insAux B key v c1 tl with ⟨o, c1', tl', ad2⟩
        rw [hres] at h
        cases h
        have hrec := insAux_len tl c1 B key v o c1' tl' ad2 hres
        simp only [EL.len, hrec]
        omega

/-! ## Claim theorems (C2, C3, C5, C6, C8, C9, C10) -/

/-- C2: for every insert sequence, `member(k)` answers true exactly for the
keys that were inserted: true for every inserted key (removal does not
exist) and false for every key never inserted. -/
theorem C2_membership (B : Nat) (hB : 2 ≤ B) (seq : List Entry) (key : Int) :
    treeMember (reach B seq) key = true ↔ key ∈ seq.map Prod.fst := by
  obtain ⟨hroot, hflat⟩ := reach_ok B hB seq
  cases hre : reach B seq with
  | none =>
    rw [hre] at hflat
    simp only [treeMember]
    constructor
    · intro h; cases h
    · intro hmem
      have hx := (flatOf_mem key seq).2 hmem
      rw [← hflat] at hx
      simp [treeEntries] at hx
  | some t =>
    rw [hre] at hroot hflat
    obtain ⟨hg, _, _, _⟩ := hroot
    simp only [treeMember]
    rw [memberN_ok t key none none hg rfl rfl]
    rw [show entriesOf t = flatOf seq from hflat]
    exact flatOf_mem key seq

theorem C2_membership_witness :
    2 ≤ 6 ∧
    (treeMember (reach 6 [(5, 50), (3, 30)]) 3 = true ↔
      (3 : Int) ∈ [((5 : Int), (50 : Int)), (3, 30)].map Prod.fst) :=
  ⟨by omega, C2_membership 6 (by omega) [(5, 50), (3, 30)] 3⟩

/-- C3: `insert(k, v)` returns the previously mapped value when `k` is
present (an update, never an error; distinct-key count unchanged) and
`none` when `k` is absent (distinct-key count grows by one).  Keys are
pairwise distinct, so the slot count is the distinct-key count. -/
theorem C3_update_semantics (B : Nat) (hB : 2 ≤ B) (seq : List Entry)
    (key v : Int) :
    (treeInsert B key v (reach B seq)).1 =
      lookupL key (treeEntries (reach B seq)) ∧
    ((treeEntries (reach B seq)).map Prod.fst).Nodup ∧
    (treeMember (reach B seq) key = true →
      (treeInsert B key v (reach B seq)).1 ≠ none ∧
      (treeEntries (treeInsert B key v (reach B seq)).2).length =
        (treeEntries (reach B seq)).length) ∧
    (treeMember (reach B seq) key = false →
      (treeInsert B key v (reach B seq)).1 = none ∧
      (treeEntries (treeInsert B key v (reach B seq)).2).length =
        (treeEntries (reach B seq)).length + 1) := by
  obtain ⟨hroot, hflat⟩ := reach_ok B hB seq
  obtain ⟨hR, hE, hL⟩ := treeInsert_ok B hB key v (reach B seq) hroot
  have hok : okL none none (treeEntries (reach B seq)) = true := by
    cases hre : reach B seq with
    | none => rfl
    | some t =>
      rw [hre] at hroot
      exact good_flat t hroot.1
  have hmem : treeMember (reach B seq) key = true ↔
      lookupL key (treeEntries (reach B seq)) ≠ none := by
    cases hre : reach B seq with
    | none => simp [treeMember, treeEntries, lookupL]
    | some t =>
      rw [hre] at hroot
      simp only [treeMember, treeEntries]
      rw [memberN_ok t key none none hroot.1 rfl rfl, Ne, lookupL_none_iff]
      exact (not_not).symm
  have hlen : (treeEntries (treeInsert B key v (reach B seq)).2).length =
      if lookupL key (treeEntries (reach B seq)) = none
      then (treeEntries (reach B seq)).length + 1
      else (treeEntries (reach B seq)).length := by
    rw [hE]
    exact @linsert_length none none key v _ hok
  refine ⟨hL, okL_keys_nodup hok, ?_, ?_⟩
  · intro hmem'
    have hne := hmem.1 hmem'
    refine ⟨by rw [hL]; exact hne, ?_⟩
    rw [hlen, if_neg hne]
  · intro hmem'
    have hnone : lookupL key (treeEntries (reach B seq)) = none := by
      by_contra hcon
      rw [hmem.2 hcon] at hmem'
      cases hmem'
    refine ⟨by rw [hL]; exact hnone, ?_⟩
    rw [hlen, if_pos hnone]

theorem C3_update_semantics_witness :
    2 ≤ 6 ∧
    ((treeInsert 6 3 99 (reach 6 [(5, 50), (3, 30)])).1 =
      lookupL 3 (treeEntries (reach 6 [(5, 50), (3, 30)])) ∧
    ((treeEntries (reach 6 [(5, 50), (3, 30)])).map Prod.fst).Nodup ∧
    (treeMember (reach 6 [(5, 50), (3, 30)]) 3 = true →
      (treeInsert 6 3 99 (reach 6 [(5, 50), (3, 30)])).1 ≠ none ∧
      (treeEntries (treeInsert 6 3 99 (reach 6 [(5, 50), (3, 30)])).2).length =
        (treeEntries (reach 6 [(5, 50), (3, 30)])).length) ∧
    (treeMember (reach 6 [(5, 50), (3, 30)]) 3 = false →
      (treeInsert 6 3 99 (reach 6 [(5, 50), (3, 30)])).1 = none ∧
      (treeEntries (treeInsert 6 3 99 (reach 6 [(5, 50), (3, 30)])).2).length =
        (treeEntries (reach 6 [(5, 50), (3, 30)])).length + 1)) :=
  ⟨by omega, C3_update_semantics 6 (by omega) [(5, 50), (3, 30)] 3 99⟩

/-- C10: after every completed tree insert no node persists at the nominal
capacity `2B-1`: every node of the reached tree has `usage ≤ 2B-2` (the
full state arises only inside `insert`/`adopt` and is split away before the
operation returns). -/
theorem C10_no_full_node (B : Nat) (hB : 2 ≤ B) (seq : List Entry) (t : BT)
    (h : reach B seq = some t) : usageLe (2 * B - 2) t = true := by
  obtain ⟨hroot, _⟩ := reach_ok B hB seq
  rw [h] at hroot
  exact hroot.2.2.1

theorem C10_no_full_node_witness :
    2 ≤ 2 ∧ reach 2 [(1, 1)] = some (.leaf [(1, 1)]) ∧
    usageLe (2 * 2 - 2) (.leaf [(1, 1)]) = true :=
  ⟨by omega, rfl, C10_no_full_node 2 (by omega) [(1, 1)] (.leaf [(1, 1)]) rfl⟩

/-- C6: after any insert sequence all leaves sit at equal depth, and one
more insert either keeps the height or raises it by exactly one, the latter
only by installing a new singleton root (`usage = 1`, two children) above
the split halves of the old root. -/
theorem C6_height_balance (B : Nat) (hB : 2 ≤ B) (seq : List Entry) :
    (∀ t, reach B seq = some t → eqDepth t (hgt t) = true) ∧
    (∀ t t' key v, reach B seq = some t →
      (treeInsert B key v (some t)).2 = some t' →
      hgt t' = hgt t ∨
      (hgt t' = hgt t + 1 ∧ usageOf t' = 1 ∧
        ∃ l k w r, t' = .node l (.cons k w r .nil))) := by
  obtain ⟨hroot, _⟩ := reach_ok B hB seq
  constructor
  · intro t ht
    rw [ht] at hroot
    exact hroot.2.2.2
  · intro t t' key v ht hins
    rw [ht] at hroot
    obtain ⟨hg, hnz, hle, hd⟩ := hroot
    have hins2 := insertN_ok t B key v none none (hgt t) hB hg rfl rfl hnz hle hd
    rcases hres : insertN B key v t with ⟨old, ri⟩
    rw [hres] at hins2
    cases ri with
    | ok t2 =>
      have hcomp : (treeInsert B key v (some t)).2 = some t2 := by
        simp [treeInsert, hres]
      rw [hcomp] at hins
      cases hins
      exact Or.inl (eqDepth_hgt t' (hgt t) hins2.2.2.2.2.2)
    | split l k w r =>
      have hcomp : (treeInsert B key v (some t)).2 =
          some (.node l (.cons k w r .nil)) := by
        simp [treeInsert, hres]
      rw [hcomp] at hins
      cases hins
      obtain ⟨_, _, _, _, _, _, _, _, _, _, h11, _, _, _⟩ := hins2
      refine Or.inr ⟨?_, by simp [usageOf, EL.len], l, k, w, r, rfl⟩
      simp only [hgt, eqDepth_hgt l (hgt t) h11]

theorem C6_height_balance_witness :
    2 ≤ 2 ∧
    ((∀ t, reach 2 [(1, 1)] = some t → eqDepth t (hgt t) = true) ∧
    (∀ t t' key v, reach 2 [(1, 1)] = some t →
      (treeInsert 2 key v (some t)).2 = some t' →
      hgt t' = hgt t ∨
      (hgt t' = hgt t + 1 ∧ usageOf t' = 1 ∧
        ∃ l k w r, t' = .node l (.cons k w r .nil)))) :=
  ⟨by omega, C6_height_balance 2 (by omega) [(1, 1)]⟩

/-- C5: a node at capacity (`2B-1` keys) receiving one more key splits into
two nodes of `B-1` keys each plus one promoted pair, and the adopting
parent gains exactly one key and one child. -/
theorem C5_split_counts (B : Nat) (hB : 2 ≤ B) :
    (∀ kvs : List Entry, kvs.length = 2 * B - 1 →
      ∃ l k w r, splitLeaf B kvs = .split l k w r ∧
        usageOf l = B - 1 ∧ usageOf r = B - 1) ∧
    (∀ (c0 : BT) (rest : EL), rest.len = 2 * B - 1 →
      ∃ l k w r, splitNode B c0 rest = .split l k w r ∧
        usageOf l = B - 1 ∧ usageOf r = B - 1 ∧
        childCount l = B ∧ childCount r = B) ∧
    (∀ (key v : Int) (c c' : BT) (rest rest' : EL) (old : Option Int),
      insAux B key v c rest = (old, c', rest', true) →
      rest'.len = rest.len + 1 ∧
      childCount (.node c' rest') = childCount (.node c rest) + 1) := by
  refine ⟨?_, ?_, ?_⟩
  · intro kvs hlen
    cases hget : kvs.get? (B - 1) with
    | none =>
      exfalso
      have := List.get?_eq_none.1 hget
      omega
    | some e =>
      obtain ⟨k, w⟩ := e
      refine ⟨.leaf (kvs.take (B - 1)), k, w, .leaf (kvs.drop B),
        by simp only [splitLeaf, hget], ?_, ?_⟩
      · simp only [usageOf, List.length_take]
        omega
      · simp only [usageOf, List.length_drop]
        omega
  · intro c0 rest hlen
    obtain ⟨k, w, cB, hget⟩ := EL.get?_lt (B - 1) rest (by omega)
    refine ⟨.node c0 (rest.take (B - 1)), k, w, .node cB (rest.drop B),
      by simp only [splitNode, hget], ?_, ?_, ?_, ?_⟩
    · simp only [usageOf, EL.len_take]
      omega
    · simp only [usageOf, EL.len_drop]
      omega
    · simp only [childCount, EL.len_take]
      omega
    · simp only [childCount, EL.len_drop]
      omega
  · intro key v c c' rest rest' old h
    have := insAux_len rest c B key v old c' rest' true h
    simp only [if_pos] at this
    constructor
    · omega
    · simp only [childCount]
      omega

theorem C5_split_counts_witness :
    2 ≤ 2 ∧
    ((∀ kvs : List Entry, kvs.length = 2 * 2 - 1 →
      ∃ l k w r, splitLeaf 2 kvs = .split l k w r ∧
        usageOf l = 2 - 1 ∧ usageOf r = 2 - 1) ∧
    (∀ (c0 : BT) (rest : EL), rest.len = 2 * 2 - 1 →
      ∃ l k w r, splitNode 2 c0 rest = .split l k w r ∧
        usageOf l = 2 - 1 ∧ usageOf r = 2 - 1 ∧
        childCount l = 2 ∧ childCount r = 2) ∧
    (∀ (key v : Int) (c c' : BT) (rest rest' : EL) (old : Option Int),
      insAux 2 key v c rest = (old, c', rest', true) →
      rest'.len = rest.len + 1 ∧
      childCount (.node c' rest') = childCount (.node c rest) + 1)) :=
  ⟨by omega, C5_split_counts 2 (by omega)⟩

/-- C4: whenever an insert or adoption raises `usage` to `2B-1` the node
splits at once, and the split layout is exact: the left sibling receives
`keys[0..B-1)`, the right `keys[B..2B-1)`, the promoted element is
`keys[B-1]`; for internal nodes `children[0..B)` go left and
`children[B..2B)` go right (the embedding keeps children by position, which
is what the source's re-stamp of `parent`/`parent_idx` maintains). -/
theorem C4_split_layout (B : Nat) (hB : 2 ≤ B) :
    (∀ kvs : List Entry, kvs.length = 2 * B - 1 →
      ∃ k w, kvs.get? (B - 1) = some (k, w) ∧
        splitLeaf B kvs =
          .split (.leaf (kvs.take (B - 1))) k w (.leaf (kvs.drop B))) ∧
    (∀ (c0 : BT) (rest : EL), rest.len = 2 * B - 1 →
      ∃ k w cB, rest.get? (B - 1) = some (k, w, cB) ∧
        splitNode B c0 rest =
          .split (.node c0 (rest.take (B - 1))) k w (.node cB (rest.drop B)) ∧
        (∀ i, i < B → childAt c0 (rest.take (B - 1)) i = childAt c0 rest i) ∧
        (∀ i, i < B →
          childAt cB (rest.drop B) i = childAt c0 rest (B + i))) ∧
    (∀ (kvs kvs' : List Entry) (key v : Int),
      leafIns key v kvs = (none, kvs') → kvs'.length = 2 * B - 1 →
      insertN B key v (.leaf kvs) = (none, splitLeaf B kvs')) ∧
    (∀ (c0 c' : BT) (rest rest' : EL) (key v : Int) (old : Option Int),
      insAux B key v c0 rest = (old, c', rest', true) →
      rest'.len = 2 * B - 1 →
      insertN B key v (.node c0 rest) = (old, splitNode B c' rest')) := by
  have hB1 : B - 1 + 1 = B := by omega
  refine ⟨?_, ?_, ?_, ?_⟩
  · intro kvs hlen
    cases hget : kvs.get? (B - 1) with
    | none =>
      exfalso
      have := List.get?_eq_none.1 hget
      omega
    | some e =>
      obtain ⟨k, w⟩ := e
      exact ⟨k, w, rfl, by simp only [splitLeaf, hget]⟩
  · intro c0 rest hlen
    obtain ⟨k, w, cB, hget⟩ := EL.get?_lt (B - 1) rest (by omega)
    refine ⟨k, w, cB, hget, by simp only [splitNode, hget], ?_, ?_⟩
    · intro i hi
      cases i with
      | zero => rw [childAt_zero, childAt_zero]
      | succ j =>
        rw [childAt_succ, childAt_succ, EL.get?_take j (B - 1) rest (by omega)]
    · intro i hi
      cases i with
      | zero =>
        have hc : childAt c0 rest (B - 1 + 1) = some cB := by
          rw [childAt_succ, hget]
          rfl
        rw [hB1] at hc
        rw [childAt_zero, show B + 0 = B from by omega, hc]
      | succ j =>
        rw [childAt_succ, EL.get?_drop B j rest,
          show B + (j + 1) = (B + j) + 1 from by omega, childAt_succ]
  · intro kvs kvs' key v hli hlen
    simp only [insertN, hli, if_pos hlen]
  · intro c0 c' rest rest' key v old hia hlen
    simp only [insertN, hia]
    rw [if_pos (show True ∧ rest'.len = 2 * B - 1 from ⟨trivial, hlen⟩)]

theorem C4_split_layout_witness :
    2 ≤ 2 ∧
    ((∀ kvs : List Entry, kvs.length = 2 * 2 - 1 →
      ∃ k w, kvs.get? (2 - 1) = some (k, w) ∧
        splitLeaf 2 kvs =
          .split (.leaf (kvs.take (2 - 1))) k w (.leaf (kvs.drop 2))) ∧
    (∀ (c0 : BT) (rest : EL), rest.len = 2 * 2 - 1 →
      ∃ k w cB, rest.get? (2 - 1) = some (k, w, cB) ∧
        splitNode 2 c0 rest =
          .split (.node c0 (rest.take (2 - 1))) k w (.node cB (rest.drop 2)) ∧
        (∀ i, i < 2 → childAt c0 (rest.take (2 - 1)) i = childAt c0 rest i) ∧
        (∀ i, i < 2 →
          childAt cB (rest.drop 2) i = childAt c0 rest (2 + i))) ∧
    (∀ (kvs kvs' : List Entry) (key v : Int),
      leafIns key v kvs = (none, kvs') → kvs'.length = 2 * 2 - 1 →
      insertN 2 key v (.leaf kvs) = (none, splitLeaf 2 kvs')) ∧
    (∀ (c0 c' : BT) (rest rest' : EL) (key v : Int) (old : Option Int),
      insAux 2 key v c0 rest = (old, c', rest', true) →
      rest'.len = 2 * 2 - 1 →
      insertN 2 key v (.node c0 rest) = (old, splitNode 2 c' rest'))) :=
  ⟨by omega, C4_split_layout 2 (by omega)⟩

/-- C8 counterexample: for 32-bit signed keys the subtraction-based
comparator misorders extreme inputs: at `a = -2^31 < b = 1` the computed
difference wraps around and comes out positive. -/
theorem C8_counterexample :
    (-(2 ^ 31) : Int) < 1 ∧ 0 < cmpSigned32 (-(2 ^ 31)) 1 := by
  constructor
  · norm_num
  · norm_num [cmpSigned32, wrap32]

theorem cmp_gt_iff (a b : Int) : 0 < cmp a b ↔ b < a := by
  unfold cmp
  split_ifs with h1 h2
  · simp only [show ¬((0 : Int) < -1) by norm_num, false_iff]
    omega
  · simp only [show ((0 : Int) < 1) by norm_num, true_iff]
    omega
  · simp only [lt_irrefl, false_iff]
    omega

/-- C8 (amended): the subtraction-based comparator on 32-bit signed keys
implements the three-way contract exactly when the true difference `a - b`
is representable in the type, i.e. lies in `[-2^31, 2^31)`; the generic
comparison branch (used for unsigned/non-arithmetic keys) satisfies the
contract unconditionally. -/
theorem C8_amended (a b : Int) (h1 : -(2 ^ 31) ≤ a - b)
    (h2 : a - b < 2 ^ 31) :
    (cmpSigned32 a b < 0 ↔ a < b) ∧ (cmpSigned32 a b = 0 ↔ a = b) ∧
    (0 < cmpSigned32 a b ↔ b < a) ∧
    (cmp a b < 0 ↔ a < b) ∧ (cmp a b = 0 ↔ a = b) ∧ (0 < cmp a b ↔ b < a) := by
  have hw : cmpSigned32 a b = a - b := by
    unfold cmpSigned32 wrap32
    omega
  rw [hw]
  refine ⟨by omega, by omega, by omega, cmp_lt_iff a b, cmp_eq_iff a b,
    cmp_gt_iff a b⟩

theorem C8_amended_witness :
    (-(2 ^ 31) : Int) ≤ 5 - 3 ∧ ((5 : Int) - 3 < 2 ^ 31) ∧
    ((cmpSigned32 5 3 < 0 ↔ (5 : Int) < 3) ∧
      (cmpSigned32 5 3 = 0 ↔ (5 : Int) = 3) ∧
      (0 < cmpSigned32 5 3 ↔ (3 : Int) < 5) ∧
      (cmp 5 3 < 0 ↔ (5 : Int) < 3) ∧ (cmp 5 3 = 0 ↔ (5 : Int) = 3) ∧
      (0 < cmp 5 3 ↔ (3 : Int) < 5)) :=
  ⟨by norm_num, by norm_num, C8_amended 5 3 (by norm_num) (by norm_num)⟩

/-- C9 counterexample: the before-begin sentinel returned by an exhausted
`predecessor` is `{.idx = 0, .node = nullptr}` — the very same value as
`BTree::end()` — so it compares equal to the end sentinel, contradicting
the claim that the end sentinel equals only another end sentinel. -/
theorem C9_counterexample :
    reach 6 [(1, 10)] = some (.leaf [(1, 10)]) ∧
    predIter (.leaf [(1, 10)]) (minPathOf (.leaf [(1, 10)])) 0 = none ∧
    toIt (predIter (.leaf [(1, 10)]) (minPathOf (.leaf [(1, 10)])) 0) = endIt ∧
    itEq (toIt (predIter (.leaf [(1, 10)]) (minPathOf (.leaf [(1, 10)])) 0))
      endIt = true :=
  ⟨rfl, rfl, rfl, rfl⟩

/-- C9 (amended): iterator equality holds exactly when both the node
reference and the slot agree; the end sentinel never equals a live position
(whose node is non-null), but the before-begin sentinel produced when
`predecessor` is exhausted at the root is the identical `{0, nullptr}`
value and does compare equal to `end()`. -/
theorem C9_amended :
    (∀ a b : It, itEq a b = true ↔ a.idx = b.idx ∧ a.node = b.node) ∧
    (∀ p i, itEq endIt (toIt (some (p, i))) = false) ∧
    (∀ (t : BT) (p : List Nat) (i : Nat), predIter t p i = none →
      itEq (toIt (predIter t p i)) endIt = true) := by
  refine ⟨?_, ?_, ?_⟩
  · intro a b
    simp [itEq, Bool.and_eq_true]
  · intro p i
    simp [itEq, endIt, toIt]
  · intro t p i h
    rw [h]
    rfl

theorem C9_amended_witness :
    predIter (.leaf [(1, 10)]) [] 0 = none ∧
    itEq (toIt (predIter (.leaf [(1, 10)]) [] 0)) endIt = true :=
  ⟨rfl, (C9_amended).2.2 (.leaf [(1, 10)]) [] 0 rfl⟩


/-! ## Path lemmas for the iterator model -/

theorem subtreeAt_append : ∀ (p q : List Nat) (t : BT),
    subtreeAt t (p ++ q) = (subtreeAt t p).bind (fun c => subtreeAt c q)
  | [], _, _ => by simp [subtreeAt]
  | j :: p, q, .leaf kvs => by simp [subtreeAt]
  | j :: p, q, .node c0 rest => by
    simp only [List.cons_append, subtreeAt]
    cases childAt c0 rest j with
    | none => simp
    | some c => exact subtreeAt_append p q c

theorem subtreeAt_isSome_pre {t : BT} {p q : List Nat}
    (h : (subtreeAt t (p ++ q)).isSome = true) :
    (subtreeAt t p).isSome = true := by
  rw [subtreeAt_append] at h
  cases hp : subtreeAt t p with
  | none => rw [hp] at h; simp at h
  | some c => rfl

theorem minKvs_spec : ∀ t : BT,
    subtreeAt t (minPathOf t) = some (.leaf (minKvs t))
  | .leaf kvs => rfl
  | .node c0 rest => by
    simp only [minPathOf, minKvs, subtreeAt, childAt]
    exact minKvs_spec c0

theorem lastChild_at : ∀ (rest : EL) (c0 : BT),
    childAt c0 rest rest.len = some (lastChild c0 rest)
  | .nil, c0 => rfl
  | .cons k v c tl, c0 => by
    simp only [EL.len, childAt, lastChild]
    exact lastChild_at tl c

theorem maxPathAux_eq : ∀ (rest : EL) (c : BT),
    maxPathAux c rest = maxPathOf (lastChild c rest)
  | .nil, c => by simp [maxPathAux, lastChild]
  | .cons k v c1 tl, c => by
    simp only [maxPathAux, lastChild]
    exact maxPathAux_eq tl c1

theorem maxKvsAux_eq : ∀ (rest : EL) (c : BT),
    maxKvsAux c rest = maxKvs (lastChild c rest)
  | .nil, c => by simp [maxKvsAux, lastChild]
  | .cons k v c1 tl, c => by
    simp only [maxKvsAux, lastChild]
    exact maxKvsAux_eq tl c1

theorem maxIdxAux_eq : ∀ (rest : EL) (c : BT),
    maxIdxAux c rest = maxIdxOf (lastChild c rest)
  | .nil, c => by simp [maxIdxAux, lastChild]
  | .cons k v c1 tl, c => by
    simp only [maxIdxAux, lastChild]
    exact maxIdxAux_eq tl c1

theorem sizeOf_lastChild : ∀ (rest : EL) (c : BT),
    sizeOf (lastChild c rest) ≤ sizeOf c + sizeOf rest
  | .nil, c => by
    simp only [lastChild]
    omega
  | .cons k v c1 tl, c => by
    simp only [lastChild]
    have h := sizeOf_lastChild tl c1
    simp only [EL.cons.sizeOf_spec]
    omega

theorem maxKvs_spec : ∀ t : BT,
    subtreeAt t (maxPathOf t) = some (.leaf (maxKvs t))
  | .leaf kvs => by simp [maxPathOf, maxKvs, subtreeAt]
  | .node c0 rest => by
    simp only [maxPathOf, maxKvsAux_eq rest c0, maxPathAux_eq rest c0, maxKvs,
      subtreeAt, lastChild_at rest c0]
    exact maxKvs_spec (lastChild c0 rest)
termination_by t => sizeOf t
decreasing_by
  simp_wf
  have h := sizeOf_lastChild rest c0
  omega

theorem maxIdx_spec : ∀ t : BT, maxIdxOf t = (maxKvs t).length - 1
  | .leaf kvs => by simp [maxIdxOf, maxKvs]
  | .node c0 rest => by
    simp only [maxIdxOf, maxIdxAux_eq rest c0, maxKvsAux_eq rest c0, maxKvs]
    exact maxIdx_spec (lastChild c0 rest)
termination_by t => sizeOf t
decreasing_by
  simp_wf
  have h := sizeOf_lastChild rest c0
  omega

/-! ## Climb composition lemmas -/

theorem climbSucc_append : ∀ (rs : List Nat) (t c : BT) (pr : List Nat),
    subtreeAt t pr = some c → (subtreeAt c rs.reverse).isSome = true →
    climbSucc t (rs ++ pr.reverse) =
      match climbSucc c rs with
      | some q => some (pr ++ q.1, q.2)
      | none => climbSucc t pr.reverse
  | [], t, c, pr, hpr, hv => by simp [climbSucc]
  | j :: rs, t, c, pr, hpr, hv => by
    have hvpre : (subtreeAt c rs.reverse).isSome = true := by
      apply subtreeAt_isSome_pre
      rw [show rs.reverse ++ [j] = (j :: rs).reverse from by simp]
      exact hv
    cases hn : subtreeAt c rs.reverse with
    | none => rw [hn] at hvpre; cases hvpre
    | some n =>
      have hrev : (rs ++ pr.reverse).reverse = pr ++ rs.reverse := by
        simp
      have hsub : subtreeAt t (rs ++ pr.reverse).reverse = some n := by
        rw [hrev, subtreeAt_append, hpr]
        exact hn
      simp only [List.cons_append, climbSucc, List.append_eq, hsub, hn]
      by_cases hj : j = usageOf n
      · rw [if_pos hj, if_pos hj]
        exact climbSucc_append rs t c pr hpr hvpre
      · rw [if_neg hj, if_neg hj, hrev]

theorem climbPred_append : ∀ (rs : List Nat) (t c : BT) (pr : List Nat),
    subtreeAt t pr = some c → (subtreeAt c rs.reverse).isSome = true →
    climbPred t (rs ++ pr.reverse) =
      match climbPred c rs with
      | some q => some (pr ++ q.1, q.2)
      | none => climbPred t pr.reverse
  | [], t, c, pr, hpr, hv => by simp [climbPred]
  | j :: rs, t, c, pr, hpr, hv => by
    have hvpre : (subtreeAt c rs.reverse).isSome = true := by
      apply subtreeAt_isSome_pre
      rw [show rs.reverse ++ [j] = (j :: rs).reverse from by simp]
      exact hv
    cases hn : subtreeAt c rs.reverse with
    | none => rw [hn] at hvpre; cases hvpre
    | some n =>
      have hrev : (rs ++ pr.reverse).reverse = pr ++ rs.reverse := by
        simp
      have hsub : subtreeAt t (rs ++ pr.reverse).reverse = some n := by
        rw [hrev, subtreeAt_append, hpr]
        exact hn
      simp only [List.cons_append, climbPred, List.append_eq, hsub, hn]
      by_cases hj : j = 0
      · rw [if_pos hj, if_pos hj]
        exact climbPred_append rs t c pr hpr hvpre
      · rw [if_neg hj, if_neg hj, hrev]

theorem climbPred_min : ∀ t : BT, climbPred t (minPathOf t).reverse = none
  | .leaf kvs => by simp [minPathOf, climbPred]
  | .node c0 rest => by
    have hsub : subtreeAt (BT.node c0 rest) [0] = some c0 := by
      simp [subtreeAt, childAt]
    have hv : (subtreeAt c0 (minPathOf c0).reverse.reverse).isSome = true := by
      rw [List.reverse_reverse, minKvs_spec c0]
      rfl
    have hap := climbPred_append (minPathOf c0).reverse (BT.node c0 rest) c0
      [0] hsub hv
    rw [climbPred_min c0] at hap
    simp only [minPathOf]
    rw [show ((0 : Nat) :: minPathOf c0).reverse =
      (minPathOf c0).reverse ++ [0].reverse from by simp]
    rw [hap]
    simp [climbPred, subtreeAt]

theorem subtreeAt_snoc {t m : BT} {p : List Nat} {j : Nat}
    (h : subtreeAt t (p ++ [j]) = some m) :
    ∃ c0 rest, subtreeAt t p = some (.node c0 rest) ∧
      childAt c0 rest j = some m := by
  rw [subtreeAt_append] at h
  cases hp : subtreeAt t p with
  | none => rw [hp] at h; cases h
  | some n =>
    rw [hp] at h
    cases n with
    | leaf kvs => simp [subtreeAt] at h
    | node c0 rest =>
      refine ⟨c0, rest, rfl, ?_⟩
      simp only [Option.some_bind, subtreeAt] at h
      cases hc : childAt c0 rest j with
      | none => rw [hc] at h; cases h
      | some c =>
        rw [hc] at h
        simpa [subtreeAt] using h

theorem maxPath_node (c0 : BT) (rest : EL) :
    maxPathOf (.node c0 rest) = rest.len :: maxPathOf (lastChild c0 rest) := by
  simp [maxPathOf, maxPathAux_eq]

theorem maxKvs_node (c0 : BT) (rest : EL) :
    maxKvs (.node c0 rest) = maxKvs (lastChild c0 rest) := by
  simp [maxKvs, maxKvsAux_eq]

theorem climbSucc_inv : ∀ (rp : List Nat) (t m : BT),
    subtreeAt t rp.reverse = some m →
    ∀ pp j, climbSucc t rp = some (pp, j) →
    ∃ cj, subtreeAt t (pp ++ [j]) = some cj ∧
      ∃ q, rp.reverse = (pp ++ [j]) ++ q ∧
        maxPathOf cj = q ++ maxPathOf m ∧ maxKvs cj = maxKvs m
  | [], t, m, hsub, pp, j, hclimb => by simp [climbSucc] at hclimb
  | j' :: rp', t, m, hsub, pp, j, hclimb => by
    have hsub' : subtreeAt t (rp'.reverse ++ [j']) = some m := by
      simpa using hsub
    obtain ⟨nc0, nrest, hn, hchild⟩ := subtreeAt_snoc hsub'
    simp only [climbSucc, hn] at hclimb
    by_cases hj : j' = usageOf (BT.node nc0 nrest)
    · rw [if_pos hj] at hclimb
      have hm : m = lastChild nc0 nrest := by
        have hl := lastChild_at nrest nc0
        simp only [usageOf] at hj
        rw [hj] at hchild
        rw [hchild] at hl
        exact Option.some_inj.1 hl
      obtain ⟨cj, hsubcj, q', hdec, hmp, hmk⟩ :=
        climbSucc_inv rp' t (BT.node nc0 nrest) hn pp j hclimb
      refine ⟨cj, hsubcj, q' ++ [j'], ?_, ?_, ?_⟩
      · simp only [List.reverse_cons, hdec, List.append_assoc]
      · rw [hmp, maxPath_node, ← hm]
        simp only [usageOf] at hj
        rw [← hj]
        simp
      · rw [hmk, maxKvs_node, ← hm]
    · rw [if_neg hj] at hclimb
      obtain ⟨rfl, rfl⟩ : rp'.reverse = pp ∧ j' = j := by
        cases hclimb
        exact ⟨rfl, rfl⟩
      exact ⟨m, hsub', [], by simp, by simp, rfl⟩

theorem climbSucc_none_inv : ∀ (rp : List Nat) (t m : BT),
    subtreeAt t rp.reverse = some m → climbSucc t rp = none →
    maxPathOf t = rp.reverse ++ maxPathOf m ∧ maxKvs t = maxKvs m
  | [], t, m, hsub, _ => by
    simp only [List.reverse_nil, subtreeAt] at hsub
    cases hsub
    exact ⟨by simp, rfl⟩
  | j' :: rp', t, m, hsub, hclimb => by
    have hsub' : subtreeAt t (rp'.reverse ++ [j']) = some m := by
      simpa using hsub
    obtain ⟨nc0, nrest, hn, hchild⟩ := subtreeAt_snoc hsub'
    simp only [climbSucc, hn] at hclimb
    by_cases hj : j' = usageOf (BT.node nc0 nrest)
    · rw [if_pos hj] at hclimb
      have hm : m = lastChild nc0 nrest := by
        have hl := lastChild_at nrest nc0
        simp only [usageOf] at hj
        rw [hj] at hchild
        rw [hchild] at hl
        exact Option.some_inj.1 hl
      obtain ⟨ih1, ih2⟩ :=
        climbSucc_none_inv rp' t (BT.node nc0 nrest) hn hclimb
      constructor
      · rw [ih1, maxPath_node, ← hm]
        simp only [usageOf] at hj
        rw [← hj]
        simp
      · rw [ih2, maxKvs_node, ← hm]
    · rw [if_neg hj] at hclimb
      cases hclimb

/-- C7: on every reachable tree, for every live iterator position that is
neither the first (`min`) nor the last (`max`) position of the traversal,
`predecessor(successor(it)) == it`. -/
theorem C7_pred_succ (B : Nat) (_hB : 2 ≤ B) (seq : List Entry) (t : BT)
    (_hre : reach B seq = some t) (p : List Nat) (i : Nat)
    (hvalid : validPos t p i = true)
    (_hfirst : (p, i) ≠ (minPathOf t, 0))
    (hlast : (p, i) ≠ (maxPathOf t, maxIdxOf t)) :
    ∃ q, succIter t p i = some q ∧ predIter t q.1 q.2 = some (p, i) := by
  simp only [validPos] at hvalid
  cases hsub : subtreeAt t p with
  | none => rw [hsub] at hvalid; cases hvalid
  | some n =>
    rw [hsub] at hvalid
    simp only [decide_eq_true_eq] at hvalid
    cases n with
    | leaf kvs =>
      simp only [usageOf] at hvalid
      by_cases hlt : i < kvs.length - 1
      · refine ⟨(p, i + 1), ?_, ?_⟩
        · simp only [succIter, hsub, if_pos hlt]
        · simp only [predIter, hsub]
          rw [if_pos (show (i + 1 : Nat) ≠ 0 from by omega)]
          simp
      · have hi : i = kvs.length - 1 := by omega
        have hsubrev : subtreeAt t p.reverse.reverse = some (.leaf kvs) := by
          rw [List.reverse_reverse]
          exact hsub
        cases hclimb : climbSucc t p.reverse with
        | none =>
          exfalso
          obtain ⟨hmp, hmk⟩ :=
            climbSucc_none_inv p.reverse t (.leaf kvs) hsubrev hclimb
          apply hlast
          rw [List.reverse_reverse] at hmp
          have hmpleaf : maxPathOf (BT.leaf kvs) = ([] : List Nat) := by
            simp [maxPathOf]
          have hmkleaf : maxKvs (BT.leaf kvs) = kvs := by simp [maxKvs]
          rw [hmpleaf, List.append_nil] at hmp
          rw [hmkleaf] at hmk
          rw [maxIdx_spec t, hmk, ← hmp, hi]
        | some pq =>
          obtain ⟨pp, j⟩ := pq
          obtain ⟨cj, hsubcj, q, hdec, hmp, hmk⟩ :=
            climbSucc_inv p.reverse t (.leaf kvs) hsubrev pp j hclimb
          rw [List.reverse_reverse] at hdec
          have hmpleaf : maxPathOf (BT.leaf kvs) = ([] : List Nat) := by
            simp [maxPathOf]
          have hmkleaf : maxKvs (BT.leaf kvs) = kvs := by simp [maxKvs]
          rw [hmpleaf, List.append_nil] at hmp
          rw [hmkleaf] at hmk
          refine ⟨(pp, j), ?_, ?_⟩
          · simp only [succIter, hsub, if_neg hlt]
            exact hclimb
          · obtain ⟨pc0, prest, hppn, hchild⟩ := subtreeAt_snoc hsubcj
            simp only [predIter, hppn, hchild]
            rw [hmp]
            have hpath : pp ++ j :: q = p := by
              rw [hdec]
              simp
            rw [hpath, maxIdx_spec cj, hmk, ← hi]
    | node c0 rest =>
      simp only [usageOf] at hvalid
      obtain ⟨k, w, c, hget⟩ := EL.get?_lt i rest hvalid
      have hchild : childAt c0 rest (i + 1) = some c := by
        rw [childAt_succ, hget]
        rfl
      have hsubc : subtreeAt t (p ++ [i + 1]) = some c := by
        rw [subtreeAt_append, hsub, Option.some_bind]
        simp [subtreeAt, hchild]
      refine ⟨(p ++ (i + 1) :: minPathOf c, 0), ?_, ?_⟩
      · simp only [succIter, hsub, hchild]
      · have hsubleaf : subtreeAt t (p ++ (i + 1) :: minPathOf c) =
            some (.leaf (minKvs c)) := by
          rw [show p ++ (i + 1) :: minPathOf c =
            (p ++ [i + 1]) ++ minPathOf c from by simp,
            subtreeAt_append, hsubc, Option.some_bind]
          exact minKvs_spec c
        simp only [predIter, hsubleaf, ne_eq, not_true_eq_false,
          if_neg (by simp : ¬((0 : Nat) ≠ 0))]
        have hv : (subtreeAt c ((minPathOf c).reverse).reverse).isSome = true := by
          rw [List.reverse_reverse, minKvs_spec c]
          rfl
        have hap := climbPred_append (minPathOf c).reverse t c (p ++ [i + 1])
          hsubc hv
        rw [climbPred_min c] at hap
        rw [show (p ++ (i + 1) :: minPathOf c).reverse =
          (minPathOf c).reverse ++ (p ++ [i + 1]).reverse from by simp]
        rw [hap]
        simp only [List.reverse_append, List.reverse_cons, List.reverse_nil,
          List.nil_append, List.singleton_append]
        simp only [climbPred]
        rw [show (p.reverse).reverse = p from List.reverse_reverse p]
        rw [hsub]
        rw [if_neg (by omega : ¬(i + 1) = 0)]
        simp

theorem C7_pred_succ_witness :
    2 ≤ 2 ∧
    reach 2 [(1, 1), (2, 2), (3, 3)] =
      some (.node (.leaf [(1, 1)]) (.cons 2 2 (.leaf [(3, 3)]) .nil)) ∧
    validPos (.node (.leaf [(1, 1)]) (.cons 2 2 (.leaf [(3, 3)]) .nil)) [] 0
      = true ∧
    (([], 0) : List Nat × Nat) ≠
      (minPathOf (.node (.leaf [(1, 1)]) (.cons 2 2 (.leaf [(3, 3)]) .nil)),
        0) ∧
    (([], 0) : List Nat × Nat) ≠
      (maxPathOf (.node (.leaf [(1, 1)]) (.cons 2 2 (.leaf [(3, 3)]) .nil)),
        maxIdxOf (.node (.leaf [(1, 1)]) (.cons 2 2 (.leaf [(3, 3)]) .nil))) ∧
    ∃ q, succIter (.node (.leaf [(1, 1)]) (.cons 2 2 (.leaf [(3, 3)]) .nil))
        [] 0 = some q ∧
      predIter (.node (.leaf [(1, 1)]) (.cons 2 2 (.leaf [(3, 3)]) .nil))
        q.1 q.2 = some ([], 0) := by
  refine ⟨by omega, ?_, rfl, ?_, ?_, ?_⟩
  · simp [reach, treeInsert, insertN, leafIns, cmp, splitLeaf]
  · simp [minPathOf]
  · simp [maxPathOf, maxPathAux, maxIdxOf, maxIdxAux, EL.len]
  · exact C7_pred_succ 2 (by omega) [(1, 1), (2, 2), (3, 3)]
      (.node (.leaf [(1, 1)]) (.cons 2 2 (.leaf [(3, 3)]) .nil))
      (by simp [reach, treeInsert, insertN, leafIns, cmp, splitLeaf]) [] 0 rfl
      (by simp [minPathOf])
      (by simp [maxPathOf, maxPathAux, maxIdxOf, maxIdxAux, EL.len])


/-! ## Position lists: lengths, heads, keys -/

theorem nzAllAux_head : ∀ (rest : EL) (c : BT), nzAllAux c rest = true →
    nzAll c = true
  | .nil, c, h => by simpa [nzAllAux] using h
  | .cons k v c1 tl, c, h => by
    simp only [nzAllAux, Bool.and_eq_true] at h
    exact h.1

mutual

theorem posOf_len : ∀ t : BT, (posOf t).length = (entriesOf t).length
  | .leaf kvs => by simp [posOf, entriesOf]
  | .node c0 rest => by
    simp only [posOf, entriesOf, List.length_append, List.length_map]
    rw [posOf_len c0, posAux_len 0 rest]
termination_by t => sizeOf t
decreasing_by all_goals (simp_wf; try omega)

theorem posAux_len : ∀ (j : Nat) (rest : EL),
    (posAux j rest).length = (entriesAux rest).length
  | _, .nil => by simp [posAux, entriesAux]
  | j, .cons k v c tl => by
    simp only [posAux, entriesAux, List.length_cons, List.length_append,
      List.length_map]
    rw [posOf_len c, posAux_len (j + 1) tl]
termination_by j rest => sizeOf rest
decreasing_by all_goals (simp_wf; try omega)

end

mutual

theorem entriesOf_nz : ∀ t : BT, nzAll t = true →
    1 ≤ (entriesOf t).length
  | .leaf kvs, h => by
    simpa [nzAll, entriesOf] using h
  | .node c0 rest, h => by
    simp only [nzAll, Bool.and_eq_true] at h
    have h0 : nzAll c0 = true := nzAllAux_head rest c0 h.2
    simp only [entriesOf, List.length_append]
    have := entriesOf_nz c0 h0
    omega
termination_by t => sizeOf t
decreasing_by all_goals (simp_wf; try omega)

end

theorem posOf_head : ∀ t : BT, nzAll t = true →
    (posOf t).get? 0 = some (minPathOf t, 0)
  | .leaf kvs, h => by
    have hlen : 1 ≤ kvs.length := by simpa [nzAll] using h
    simp only [posOf, minPathOf, List.get?_map]
    rw [List.get?_range (by omega)]
    rfl
  | .node c0 rest, h => by
    simp only [nzAll, Bool.and_eq_true] at h
    have h0 : nzAll c0 = true := nzAllAux_head rest c0 h.2
    have hlen : 1 ≤ (posOf c0).length := by
      rw [posOf_len c0]
      exact entriesOf_nz c0 h0
    simp only [posOf, minPathOf]
    rw [List.get?_append (by simpa using hlen), List.get?_map,
      posOf_head c0 h0]
    rfl

theorem entriesOnly_get : ∀ (rest : EL) (j : Nat),
    (ownEntries.entriesOnly rest).get? j =
      (rest.get? j).map (fun e => (e.1, e.2.1))
  | .nil, _ => by simp [ownEntries.entriesOnly, EL.get?]
  | .cons k v c tl, 0 => by simp [ownEntries.entriesOnly, EL.get?]
  | .cons k v c tl, j + 1 => by
    simp only [ownEntries.entriesOnly, EL.get?, List.get?]
    exact entriesOnly_get tl j

theorem subtreeAt_child {T c0 c : BT} {rest : EL} {pr : List Nat} {j : Nat}
    (hsub : subtreeAt T pr = some (.node c0 rest))
    (hc : childAt c0 rest j = some c) :
    subtreeAt T (pr ++ [j]) = some c := by
  rw [subtreeAt_append, hsub, Option.some_bind]
  simp [subtreeAt, hc]

theorem EL.drop_drop : ∀ (a b : Nat) (l : EL),
    (l.drop a).drop b = l.drop (a + b)
  | 0, _, _ => by simp [EL.drop]
  | a + 1, b, .nil => by
    have hnil : ∀ m : Nat, EL.drop m .nil = .nil := fun m => by
      cases m <;> rfl
    rw [hnil, hnil, hnil]
  | a + 1, b, .cons k v c tl => by
    have hidx : a + 1 + b = (a + b) + 1 := by omega
    simp only [EL.drop, hidx]
    exact EL.drop_drop a b tl

mutual

theorem succ_spec : ∀ (c T : BT) (pr : List Nat), nzAll c = true →
    subtreeAt T pr = some c → ∀ (n : Nat) (q : List Nat × Nat),
    (posOf c).get? n = some q →
    succIter T (pr ++ q.1) q.2 =
      match (posOf c).get? (n + 1) with
      | some q' => some (pr ++ q'.1, q'.2)
      | none => climbSucc T pr.reverse
  | .leaf kvs, T, pr, hnz, hsub, n, q, hq => by
    simp only [posOf, List.get?_map] at hq
    cases hr : (List.range kvs.length).get? n with
    | none => rw [hr] at hq; cases hq
    | some m =>
      rw [hr] at hq
      have hm : m = n ∧ n < kvs.length := by
        rcases Nat.lt_or_ge n kvs.length with hlt | hge
        · rw [List.get?_range hlt] at hr
          cases hr
          exact ⟨rfl, hlt⟩
        · rw [List.get?_eq_none.2 (by simpa using hge)] at hr
          cases hr
      obtain ⟨rfl, hn⟩ := hm
      obtain rfl : q = ([], m) := by cases hq; rfl
      simp only [List.append_nil]
      by_cases hlt : m < kvs.length - 1
      · simp only [succIter, hsub, if_pos hlt]
        rw [posOf, List.get?_map, List.get?_range (by omega)]
        simp
      · simp only [succIter, hsub, if_neg hlt]
        rw [posOf, List.get?_map,
          List.get?_eq_none.2 (by simp; omega)]
        simp
  | .node c0 rest, T, pr, hnz, hsub, n, q, hq => by
    simp only [nzAll, Bool.and_eq_true, decide_eq_true_eq] at hnz
    obtain ⟨hrest1, hnzaux⟩ := hnz
    have hnzc0 : nzAll c0 = true := nzAllAux_head rest c0 hnzaux
    have hlen0 : (posOf c0).length = (entriesOf c0).length := posOf_len c0
    have hpos : posOf (BT.node c0 rest) =
        (posOf c0).map (fun q => (0 :: q.1, q.2)) ++ posAux 0 rest := by
      simp [posOf]
    have hsubc0 : subtreeAt T (pr ++ [0]) = some c0 :=
      subtreeAt_child hsub (childAt_zero c0 rest)
    rw [hpos] at hq
    rw [hpos]
    by_cases hn : n < (posOf c0).length
    · rw [List.get?_append (by simpa using hn), List.get?_map] at hq
      cases hq0 : (posOf c0).get? n with
      | none => rw [hq0] at hq; cases hq
      | some q0 =>
        rw [hq0] at hq
        obtain rfl : q = (0 :: q0.1, q0.2) := by cases hq; rfl
        have hrec := succ_spec c0 T (pr ++ [0]) hnzc0 hsubc0 n q0 hq0
        rw [show pr ++ (0 :: q0.1, q0.2).1 = (pr ++ [0]) ++ q0.1 from by simp]
        rw [hrec]
        by_cases hn1 : n + 1 < (posOf c0).length
        · rw [List.get?_append (by simpa using hn1), List.get?_map]
          cases hq1 : (posOf c0).get? (n + 1) with
          | none =>
            rw [List.get?_eq_none] at hq1
            omega
          | some q1 => simp
        · have hq1 : (posOf c0).get? (n + 1) = none :=
            List.get?_eq_none.2 (by omega)
          rw [hq1]
          have hn1e : n + 1 = (posOf c0).length := by omega
          rw [List.get?_append_right (by simp; omega)]
          simp only [List.length_map, hn1e, Nat.sub_self]
          cases hrest : rest with
          | nil => rw [hrest] at hrest1; simp [EL.len] at hrest1
          | cons k w c1 tl =>
            simp only [posAux]
            simp only [List.reverse_append, List.reverse_cons,
              List.reverse_nil, List.nil_append, List.singleton_append]
            simp only [climbSucc, List.reverse_reverse, hsub]
            rw [if_neg (by
              simp only [usageOf, hrest, EL.len]
              omega)]
            simp
    · rw [List.get?_append_right (by simpa using Nat.le_of_not_lt hn)] at hq
      have hrec := succ_aux rest 0 c0 c0 rest T pr hnzaux hrest1 hsub
        (by simp [EL.drop]) (n - (posOf c0).length) q (by
          simpa using hq)
      rw [hrec]
      rw [List.get?_append_right (by simp; omega)]
      have hidx : n + 1 - ((posOf c0).map (fun q => (0 :: q.1, q.2))).length =
          (n - (posOf c0).length) + 1 := by
        simp only [List.length_map]
        omega
      rw [hidx]
termination_by c => sizeOf c
decreasing_by all_goals (simp_wf; try omega)

theorem succ_aux : ∀ (tl : EL) (j : Nat) (cw c0 : BT) (rest : EL) (T : BT)
    (pr : List Nat), nzAllAux cw tl = true → 1 ≤ rest.len →
    subtreeAt T pr = some (.node c0 rest) → rest.drop j = tl →
    ∀ (n : Nat) (q : List Nat × Nat), (posAux j tl).get? n = some q →
    succIter T (pr ++ q.1) q.2 =
      match (posAux j tl).get? (n + 1) with
      | some q' => some (pr ++ q'.1, q'.2)
      | none => climbSucc T pr.reverse
  | .nil, j, cw, c0, rest, T, pr, hnz, hrest1, hsub, hdrop, n, q, hq => by
    simp [posAux, List.get?] at hq
  | .cons k w c tl', j, cw, c0, rest, T, pr, hnz, hrest1, hsub, hdrop, n, q,
      hq => by
    simp only [nzAllAux, Bool.and_eq_true] at hnz
    have hnzc : nzAll c = true := nzAllAux_head tl' c hnz.2
    have hgetj : rest.get? j = some (k, w, c) := by
      have h := EL.get?_drop j 0 rest
      rw [hdrop] at h
      simpa [EL.get?] using h.symm
    have hchildj : childAt c0 rest (j + 1) = some c := by
      rw [childAt_succ, hgetj]
      rfl
    have hsubc : subtreeAt T (pr ++ [j + 1]) = some c :=
      subtreeAt_child hsub hchildj
    have hlenc : (posOf c).length = (entriesOf c).length := posOf_len c
    have hlentl : tl'.len + 1 = rest.len - j := by
      have h := EL.len_drop j rest
      rw [hdrop] at h
      simp only [EL.len] at h
      omega
    have hjlt : j < rest.len := by omega
    cases n with
    | zero =>
      obtain rfl : q = ([], j) := by
        simp only [posAux, List.get?] at hq
        cases hq
        rfl
      simp only [List.append_nil, succIter, hsub, hchildj]
      have hposc : (posOf c).get? 0 = some (minPathOf c, 0) := posOf_head c hnzc
      have hlc : 1 ≤ (posOf c).length := by
        rw [hlenc]
        exact entriesOf_nz c hnzc
      simp only [posAux]
      rw [show (0 : Nat) + 1 = 1 from rfl, List.get?]
      rw [List.get?_append (by simpa using hlc), List.get?_map, hposc]
      simp
    | succ m =>
      have hq' : ((posOf c).map (fun q => ((j + 1) :: q.1, q.2)) ++
          posAux (j + 1) tl').get? m = some q := by
        simpa [posAux, List.get?] using hq
      have hgoal1 : (posAux j (EL.cons k w c tl')).get? (m + 1 + 1) =
          ((posOf c).map (fun q => ((j + 1) :: q.1, q.2)) ++
            posAux (j + 1) tl').get? (m + 1) := by
        simp [posAux, List.get?]
      rw [hgoal1]
      by_cases hm : m < (posOf c).length
      · rw [List.get?_append (by simpa using hm), List.get?_map] at hq'
        cases hq0 : (posOf c).get? m with
        | none => rw [hq0] at hq'; cases hq'
        | some q0 =>
          rw [hq0] at hq'
          obtain rfl : q = ((j + 1) :: q0.1, q0.2) := by cases hq'; rfl
          have hrec := succ_spec c T (pr ++ [j + 1]) hnzc hsubc m q0 hq0
          rw [show pr ++ ((j + 1) :: q0.1, q0.2).1 = (pr ++ [j + 1]) ++ q0.1
            from by simp]
          rw [hrec]
          by_cases hm1 : m + 1 < (posOf c).length
          · rw [List.get?_append (by simpa using hm1), List.get?_map]
            cases hq1 : (posOf c).get? (m + 1) with
            | none =>
              rw [List.get?_eq_none] at hq1
              omega
            | some q1 => simp
          · have hq1 : (posOf c).get? (m + 1) = none :=
              List.get?_eq_none.2 (by omega)
            rw [hq1]
            have hm1e : m + 1 = (posOf c).length := by omega
            rw [List.get?_append_right (by simp; omega)]
            simp only [List.length_map, hm1e, Nat.sub_self]
            simp only [List.reverse_append, List.reverse_cons,
              List.reverse_nil, List.nil_append, List.singleton_append]
            simp only [climbSucc, List.reverse_reverse, hsub]
            cases htl' : tl' with
            | nil =>
              rw [htl'] at hlentl
              rw [if_pos (by
                simp only [usageOf, EL.len] at hlentl ⊢
                omega)]
              simp [posAux]
            | cons k2 w2 c2 tl2 =>
              rw [htl'] at hlentl
              rw [if_neg (by
                simp only [usageOf, EL.len] at hlentl ⊢
                omega)]
              simp [posAux]
      · rw [List.get?_append_right (by simpa using Nat.le_of_not_lt hm)] at hq'
        have hdrop' : rest.drop (j + 1) = tl' := by
          have h := EL.drop_drop j 1 rest
          rw [hdrop] at h
          simpa [EL.drop] using h.symm
        have hrec := succ_aux tl' (j + 1) c c0 rest T pr hnz.2 hrest1 hsub
          hdrop' (m - ((posOf c).map (fun q => ((j + 1) :: q.1, q.2))).length)
          q hq'
      -- align indices
        rw [hrec]
        rw [List.get?_append_right (by simp at hm ⊢; omega)]
        have hidx : m + 1 -
            ((posOf c).map (fun q => ((j + 1) :: q.1, q.2))).length =
            (m - ((posOf c).map (fun q => ((j + 1) :: q.1, q.2))).length) + 1
            := by
          simp only [List.length_map] at hm ⊢
          omega
        rw [hidx]
termination_by tl => sizeOf tl
decreasing_by all_goals (simp_wf; try omega)

end

mutual

theorem key_spec : ∀ (c T : BT) (pr : List Nat),
    subtreeAt T pr = some c → ∀ (n : Nat) (q : List Nat × Nat),
    (posOf c).get? n = some q →
    keyAtPos T (pr ++ q.1) q.2 = ((entriesOf c).get? n).map (fun e => e.1)
  | .leaf kvs, T, pr, hsub, n, q, hq => by
    simp only [posOf, List.get?_map] at hq
    cases hr : (List.range kvs.length).get? n with
    | none => rw [hr] at hq; cases hq
    | some m =>
      rw [hr] at hq
      have hm : m = n ∧ n < kvs.length := by
        rcases Nat.lt_or_ge n kvs.length with hlt | hge
        · rw [List.get?_range hlt] at hr
          cases hr
          exact ⟨rfl, hlt⟩
        · rw [List.get?_eq_none.2 (by simpa using hge)] at hr
          cases hr
      obtain ⟨rfl, hn⟩ := hm
      obtain rfl : q = ([], m) := by cases hq; rfl
      simp only [List.append_nil, keyAtPos, hsub]
      rw [show entriesOf (BT.leaf kvs) = kvs from by simp [entriesOf]]
      rfl
  | .node c0 rest, T, pr, hsub, n, q, hq => by
    have hlen0 : (posOf c0).length = (entriesOf c0).length := posOf_len c0
    have hpos : posOf (BT.node c0 rest) =
        (posOf c0).map (fun q => (0 :: q.1, q.2)) ++ posAux 0 rest := by
      simp [posOf]
    have hent : entriesOf (BT.node c0 rest) =
        entriesOf c0 ++ entriesAux rest := by
      simp [entriesOf]
    have hsubc0 : subtreeAt T (pr ++ [0]) = some c0 :=
      subtreeAt_child hsub (childAt_zero c0 rest)
    rw [hpos] at hq
    rw [hent]
    by_cases hn : n < (posOf c0).length
    · rw [List.get?_append (by simpa using hn), List.get?_map] at hq
      cases hq0 : (posOf c0).get? n with
      | none => rw [hq0] at hq; cases hq
      | some q0 =>
        rw [hq0] at hq
        obtain rfl : q = (0 :: q0.1, q0.2) := by cases hq; rfl
        have hrec := key_spec c0 T (pr ++ [0]) hsubc0 n q0 hq0
        rw [show pr ++ (0 :: q0.1, q0.2).1 = (pr ++ [0]) ++ q0.1 from by simp]
        rw [hrec, List.get?_append (by omega)]
    · rw [List.get?_append_right (by simpa using Nat.le_of_not_lt hn)] at hq
      have hrec := key_aux rest 0 c0 rest T pr hsub (by simp [EL.drop])
        (n - (posOf c0).length) q (by simpa using hq)
      rw [hrec, List.get?_append_right (by omega)]
      rw [show n - (entriesOf c0).length = n - (posOf c0).length from by omega]
termination_by c => sizeOf c
decreasing_by all_goals (simp_wf; try omega)

theorem key_aux : ∀ (tl : EL) (j : Nat) (c0 : BT) (rest : EL) (T : BT)
    (pr : List Nat), subtreeAt T pr = some (.node c0 rest) →
    rest.drop j = tl →
    ∀ (n : Nat) (q : List Nat × Nat), (posAux j tl).get? n = some q →
    keyAtPos T (pr ++ q.1) q.2 = ((entriesAux tl).get? n).map (fun e => e.1)
  | .nil, j, c0, rest, T, pr, hsub, hdrop, n, q, hq => by
    simp [posAux, List.get?] at hq
  | .cons k w c tl', j, c0, rest, T, pr, hsub, hdrop, n, q, hq => by
    have hgetj : rest.get? j = some (k, w, c) := by
      have h := EL.get?_drop j 0 rest
      rw [hdrop] at h
      simpa [EL.get?] using h.symm
    have hchildj : childAt c0 rest (j + 1) = some c := by
      rw [childAt_succ, hgetj]
      rfl
    have hsubc : subtreeAt T (pr ++ [j + 1]) = some c :=
      subtreeAt_child hsub hchildj
    have hlenc : (posOf c).length = (entriesOf c).length := posOf_len c
    cases n with
    | zero =>
      obtain rfl : q = ([], j) := by
        simp only [posAux, List.get?] at hq
        cases hq
        rfl
      simp only [List.append_nil, keyAtPos, hsub]
      rw [show ownEntries (BT.node c0 rest) = ownEntries.entriesOnly rest
        from by simp [ownEntries]]
      rw [entriesOnly_get rest j, hgetj]
      simp [entriesAux, List.get?]
    | succ m =>
      have hq' : ((posOf c).map (fun q => ((j + 1) :: q.1, q.2)) ++
          posAux (j + 1) tl').get? m = some q := by
        simpa [posAux, List.get?] using hq
      have hgoal1 : (entriesAux (EL.cons k w c tl')).get? (m + 1) =
          (entriesOf c ++ entriesAux tl').get? m := by
        simp [entriesAux, List.get?]
      rw [hgoal1]
      by_cases hm : m < (posOf c).length
      · rw [List.get?_append (by simpa using hm), List.get?_map] at hq'
        cases hq0 : (posOf c).get? m with
        | none => rw [hq0] at hq'; cases hq'
        | some q0 =>
          rw [hq0] at hq'
          obtain rfl : q = ((j + 1) :: q0.1, q0.2) := by cases hq'; rfl
          have hrec := key_spec c T (pr ++ [j + 1]) hsubc m q0 hq0
          rw [show pr ++ ((j + 1) :: q0.1, q0.2).1 = (pr ++ [j + 1]) ++ q0.1
            from by simp]
          rw [hrec, List.get?_append (by omega)]
      · rw [List.get?_append_right (by simpa using Nat.le_of_not_lt hm)] at hq'
        have hdrop' : rest.drop (j + 1) = tl' := by
          have h := EL.drop_drop j 1 rest
          rw [hdrop] at h
          simpa [EL.drop] using h.symm
        have hrec := key_aux tl' (j + 1) c0 rest T pr hsub hdrop'
          (m - ((posOf c).map (fun q => ((j + 1) :: q.1, q.2))).length) q hq'
        rw [hrec, List.get?_append_right (by omega)]
        rw [show m - (entriesOf c).length =
          m - ((posOf c).map (fun q => ((j + 1) :: q.1, q.2))).length from by
            simp only [List.length_map]
            omega]
termination_by tl => sizeOf tl
decreasing_by all_goals (simp_wf; try omega)

end

theorem travFrom_drop (t : BT) (hnz : nzAll t = true) : ∀ (m n : Nat),
    n + m = (entriesOf t).length →
    travFrom t m ((posOf t).get? n) = (keysOf t).drop n := by
  intro m
  induction m with
  | zero =>
    intro n hn
    have hlen : (posOf t).length = (entriesOf t).length := posOf_len t
    have hklen : (keysOf t).length = (entriesOf t).length := by
      simp [keysOf]
    rw [List.get?_eq_none.2 (by omega)]
    rw [show travFrom t 0 none = [] from rfl]
    rw [List.drop_eq_nil_of_le (by omega)]
  | succ m ih =>
    intro n hn
    have hlen : (posOf t).length = (entriesOf t).length := posOf_len t
    cases hq : (posOf t).get? n with
    | none =>
      rw [List.get?_eq_none] at hq
      omega
    | some q =>
      cases he : (entriesOf t).get? n with
      | none =>
        rw [List.get?_eq_none] at he
        omega
      | some e =>
        have hsub0 : subtreeAt t [] = some t := by cases t <;> rfl
        have hkey := key_spec t t [] hsub0 n q hq
        rw [he] at hkey
        rw [show Option.map (fun e => e.1) (some e) = some e.1 from rfl]
          at hkey
        simp only [List.nil_append] at hkey
        have hsucc := succ_spec t t [] hnz hsub0 n q hq
        simp only [List.nil_append] at hsucc
        obtain ⟨p, i⟩ := q
        have hd : (keysOf t).drop n = e.1 :: (keysOf t).drop (n + 1) := by
          have hk : (keysOf t).get? n = some e.1 := by
            rw [keysOf, List.get?_map, he]
            rfl
          have hnk : n < (keysOf t).length := by
            simp [keysOf]
            omega
          rw [List.drop_eq_get_cons hnk]
          have := List.get?_eq_get hnk
          rw [hk] at this
          rw [show (keysOf t).get ⟨n, hnk⟩ = e.1 from by
            exact (Option.some_inj.1 this.symm)]
        rw [hd]
        simp only [travFrom, hkey]
        cases hq1 : (posOf t).get? (n + 1) with
        | some q1 =>
          rw [hq1] at hsucc
          simp only [List.nil_append] at hsucc
          rw [hsucc]
          have := ih (n + 1) (by omega)
          rw [hq1] at this
          rw [show travFrom t m (some (q1.1, q1.2)) = travFrom t m (some q1)
            from by rfl]
          rw [this]
        | none =>
          rw [List.get?_eq_none] at hq1
          have hm0 : m = 0 := by omega
          subst hm0
          rw [show (keysOf t).drop (n + 1) = [] from
            List.drop_eq_nil_of_le (by simp [keysOf]; omega)]
          rfl

theorem trav_eq_keysOf (t : BT) (hnz : nzAll t = true) : trav t = keysOf t := by
  have h0 := posOf_head t hnz
  have h := travFrom_drop t hnz (entriesOf t).length 0 (by omega)
  rw [h0] at h
  simpa [trav] using h

/-- C1: for every finite insert sequence into an initially empty tree,
iterating from `begin()` to `end()` by repeated `successor` steps yields
the distinct inserted keys in strictly ascending order, visiting every
distinct inserted key exactly once (strict ascent makes each key appear at
most once; membership makes each inserted key appear). -/
theorem C1_order_invariant (B : Nat) (hB : 2 ≤ B) (seq : List Entry) :
    List.Chain' (fun a b => a < b) (treeTrav (reach B seq)) ∧
    ∀ k : Int, k ∈ treeTrav (reach B seq) ↔ k ∈ seq.map Prod.fst := by
  obtain ⟨hroot, hflat⟩ := reach_ok B hB seq
  cases hr : reach B seq with
  | none =>
    have hseq : seq = [] := (reach_none_iff B seq).1 hr
    subst hseq
    simp [treeTrav]
  | some t =>
    rw [hr] at hroot hflat
    obtain ⟨hgood, hnz, _, _⟩ := hroot
    have htrav : treeTrav (some t) = keysOf t := by
      simp only [treeTrav]
      exact trav_eq_keysOf t hnz
    rw [htrav]
    have hent : entriesOf t = flatOf seq := by
      simpa [treeEntries] using hflat
    have hkeys : keysOf t = (flatOf seq).map Prod.fst := by
      simp only [keysOf, hent]
    refine ⟨?_, ?_⟩
    · have := okL_chain (good_flat t hgood)
      simpa [keysOf] using this
    · intro k
      rw [hkeys]
      exact flatOf_mem k seq

theorem C1_order_invariant_witness :
    2 ≤ 2 ∧
    (List.Chain' (fun a b => a < b)
        (treeTrav (reach 2 [(5, 0), (3, 0), (8, 0), (3, 99), (1, 0)])) ∧
      ∀ k : Int,
        k ∈ treeTrav (reach 2 [(5, 0), (3, 0), (8, 0), (3, 99), (1, 0)]) ↔
        k ∈ ([(5, 0), (3, 0), (8, 0), (3, 99), (1, 0)] : List Entry).map
              Prod.fst) :=
  ⟨by omega, C1_order_invariant 2 (by omega)
    [(5, 0), (3, 0), (8, 0), (3, 99), (1, 0)]⟩

end BTreeV
